import Mathlib

/-!
Verification of the IPP projection engine (`src/ipp.cpp`).

The C++ source is shallowly embedded: machine integers (`uint32_t`,
`uint16_t`) become `Nat` (with an explicit wrap / conversion where the C++
converts to a signed `int`), `double` arithmetic becomes exact `ℚ`
arithmetic, `std::optional` becomes `Option`, and C++ exceptions,
assertion failures and out-of-range accesses (which are undefined
behaviour or aborts in the original) become an `Except`-style error value.
`std`-container semantics (`std::set` with a custom comparator,
`std::map::at`, `std::map::insert`, `std::priority_queue`) are modelled
explicitly on lists.
-/

namespace Ipp

/-- Modelled from the spec: `PwalnEntry` is declared in the missing header
`ipp.h`; per spec §3 it is a fixed record `ref_start, ref_end, qry_start,
qry_end` (all `uint32`) and `ref_chrom, qry_chrom` (`uint16`), an aligned
block where `[ref_start, ref_end)` on `ref_chrom` corresponds to the
interval on `qry_chrom` bounded by `qry_start` and `qry_end`. -/
structure PwalnEntry where
  refStart : Nat
  refEnd : Nat
  qryStart : Nat
  qryEnd : Nat
  refChrom : Nat
  qryChrom : Nat
  deriving DecidableEq, Repr, Inhabited

/-- Modelled from the spec: "If `qry_start > qry_end` the alignment is to
the reverse strand ('reversed'); otherwise forward" (spec §3); the member
function `isQryReversed()` lives in the missing header. -/
def PwalnEntry.isQryReversed (e : PwalnEntry) : Bool :=
  e.qryEnd < e.qryStart

/-- Modelled from the spec: `Coords` is `(chrom: ChromId, loc: uint32)`,
declared in the missing header (spec §3). -/
structure Coords where
  chrom : Nat
  loc : Nat
  deriving DecidableEq, Repr, Inhabited

/-- Modelled from the spec: `Anchors` is
`(upstream: PwalnEntry, downstream: PwalnEntry)` (spec §3). -/
structure Anchors where
  upstream : PwalnEntry
  downstream : PwalnEntry
  deriving DecidableEq, Repr, Inhabited

/-- Well-formedness of a single pwaln entry, from the spec's data-model
invariant: `ref_start < ref_end`, `qry_start ≠ qry_end`. -/
def PwalnEntry.WF (e : PwalnEntry) : Prop :=
  e.refStart < e.refEnd ∧ e.qryStart ≠ e.qryEnd

instance (e : PwalnEntry) : Decidable e.WF := by
  unfold PwalnEntry.WF; infer_instance

/-- The conversion `uint32_t → int` that happens implicitly when the
`qryStart`/`qryEnd` lambdas of `Ipp::longestSubsequence` return a
`uint32_t` field through `std::function<int(PwalnEntry const&)>`
(src/ipp.cpp:786-803): values below `2^31` are preserved, larger values
wrap to negative ints. -/
def int32ofUInt32 (n : Nat) : Int :=
  if n < 2 ^ 31 then (n : Int) else (n : Int) - 2 ^ 32

/-- The kinds of abnormal termination the C++ code can exhibit: a
`std::map::at` / `std::unordered_map::at` miss (throws
`std::out_of_range`), reading `back()` / `operator[]` of an empty or
too-short `std::vector` (undefined behaviour), and a failed `assert`
(the source `#undef`s `NDEBUG`, so asserts always abort). -/
inductive Fault where
  | mapAtMiss
  | vecBackEmpty
  | assertFail
  deriving DecidableEq, Repr

/-! ## Longest collinear subsequence (src/ipp.cpp:683-833)

`longestSubsequenceImpl` is the anonymous-namespace helper
(src/ipp.cpp:683-761); `Ipp::longestSubsequence` is the public wrapper
(src/ipp.cpp:765-833).  Index vectors `m` and `prev` are modelled as a
`List Nat` (push_back = append) and a total function `Nat → Nat`
(`std::vector<unsigned> prev(seq.size())` is zero-initialised). -/

/-- State of the helper's main loop: the vector `m` (indices into `seq`
of the smallest known tail of each subsequence length) and the
backpointer array `prev`. -/
structure LisState where
  m : List Nat
  prev : Nat → Nat

/-- Element access `seq[i]`; inside the helper all accesses are in
bounds, so the default value is never observable. -/
def seqGet (seq : List PwalnEntry) (i : Nat) : PwalnEntry :=
  seq.getD i default

/-- The binary search of src/ipp.cpp:732-741: find the leftmost position
in `m` whose element no longer chains below `seq[i]`
(`while (u < v) { mid = (u+v)/2; if qryEnd(seq[m[mid]]) <= qryStart(seq[i]) then u = mid+1 else v = mid }`). -/
def lisBsearch (seq : List PwalnEntry) (qe : PwalnEntry → Int) (m : List Nat)
    (qsi : Int) (u v : Nat) : Nat :=
  if h : u < v then
    let mid := (u + v) / 2
    if qe (seqGet seq (m.getD mid 0)) ≤ qsi then
      lisBsearch seq qe m qsi (mid + 1) v
    else
      lisBsearch seq qe m qsi u mid
  else
    u
termination_by v - u
decreasing_by
  · have : (u + v) / 2 < v := by omega
    omega
  · have : u ≤ (u + v) / 2 := by omega
    omega

/-- One iteration `i` of the helper's main loop (src/ipp.cpp:706-751). -/
def lisStep (seq : List PwalnEntry) (filt : PwalnEntry → Bool)
    (qs qe : PwalnEntry → Int) (st : LisState) (i : Nat) : LisState :=
  if filt (seqGet seq i) = false then st
  else if st.m = [] then { st with m := [i] }
  else
    let b := st.m.getLastD 0
    if qe (seqGet seq b) ≤ qs (seqGet seq i) then
      { m := st.m ++ [i], prev := Function.update st.prev i b }
    else
      let u := lisBsearch seq qe st.m (qs (seqGet seq i)) 0 (st.m.length - 1)
      if qe (seqGet seq i) < qe (seqGet seq (st.m.getD u 0)) then
        { m := st.m.set u i
          prev := if 0 < u then Function.update st.prev i (st.m.getD (u - 1) 0) else st.prev }
      else st

/-- The whole main loop: fold `lisStep` over the indices of `seq`. -/
def lisRun (seq : List PwalnEntry) (filt : PwalnEntry → Bool)
    (qs qe : PwalnEntry → Int) : LisState :=
  (List.range seq.length).foldl (lisStep seq filt qs qe) ⟨[], fun _ => 0⟩

/-- The index trace of the backtrace loop (src/ipp.cpp:754-759): starting
from `v`, follow `prev` for `u` steps, collecting indices from the head. -/
def backtraceIdx (prev : Nat → Nat) (v : Nat) : Nat → List Nat
  | 0 => []
  | u + 1 => backtraceIdx prev (prev v) u ++ [v]

/-- The helper `longestSubsequence` of src/ipp.cpp:683-761.  When `seq`
is nonempty but no element passed the filter, the C++ reads `m.back()` of
an empty vector (undefined behaviour); the read value is unused and the
function returns an empty vector, which is what we return here.  The
checked variant below reports that read as a `Fault`. -/
def longestSubsequenceImpl (seq : List PwalnEntry) (filt : PwalnEntry → Bool)
    (qs qe : PwalnEntry → Int) : List PwalnEntry :=
  if seq.length = 0 then []
  else
    let st := lisRun seq filt qs qe
    match st.m with
    | [] => []
    | _ :: _ =>
      (backtraceIdx st.prev (st.m.getLastD 0) st.m.length).map (seqGet seq)

/-- Whether the helper call performs the undefined `m.back()` read on an
empty `m` (src/ipp.cpp:755 with `m.size() == 0` and nonempty `seq`). -/
def longestSubsequenceImplUB (seq : List PwalnEntry) (filt : PwalnEntry → Bool)
    (qs qe : PwalnEntry → Int) : Bool :=
  decide (seq.length ≠ 0) && decide ((lisRun seq filt qs qe).m = [])

/-! ### Correctness of the helper

The helper's output is a subsequence witness: every returned element
passes the filter, consecutive returned elements chain
(`qe a ≤ qs b`), and every returned element is an element of the
input.  These are the facts the wrapper's sanity asserts and the anchor
selection rely on. -/

section LisDefs

variable (seq : List PwalnEntry) (filt : PwalnEntry → Bool) (qs qe : PwalnEntry → Int)

/-- A backtrace of length `len` from `v` is a valid witness when all its
indices are below `bound`, all pass the filter, and consecutive indices
chain in the query dimension. -/
def ChainOK (bound : Nat) (prev : Nat → Nat) (v len : Nat) : Prop :=
  (∀ j ∈ backtraceIdx prev v len, j < bound ∧ filt (seqGet seq j) = true) ∧
  List.Chain' (fun a b => qe (seqGet seq a) ≤ qs (seqGet seq b)) (backtraceIdx prev v len)

/-- The main-loop invariant: every `m[u]` is the endpoint of a valid
witness backtrace of length `u + 1`, over indices below `k`. -/
def StInv (k : Nat) (st : LisState) : Prop :=
  ∀ u, u < st.m.length → ChainOK seq filt qs qe k st.prev (st.m.getD u 0) (u + 1)

end LisDefs


/-- The filter of the forward invocation (src/ipp.cpp:783-785). -/
def incFilter (e : PwalnEntry) : Bool := !e.isQryReversed

/-- The `qryStart` projection of the forward invocation
(src/ipp.cpp:786-788): `return e.qryStart;` converted to `int`. -/
def incQs (e : PwalnEntry) : Int := int32ofUInt32 e.qryStart

/-- The `qryEnd` projection of the forward invocation
(src/ipp.cpp:789-791). -/
def incQe (e : PwalnEntry) : Int := int32ofUInt32 e.qryEnd

/-- The filter of the reverse invocation (src/ipp.cpp:795-797). -/
def decFilter (e : PwalnEntry) : Bool := e.isQryReversed

/-- The `qryStart` projection of the reverse invocation
(src/ipp.cpp:798-800): `-1 * (int)e.qryStart`. -/
def decQs (e : PwalnEntry) : Int := -1 * int32ofUInt32 e.qryStart

/-- The `qryEnd` projection of the reverse invocation
(src/ipp.cpp:801-803). -/
def decQe (e : PwalnEntry) : Int := -1 * int32ofUInt32 e.qryEnd

/-- The forward result `inc` computed by the wrapper (src/ipp.cpp:781-791). -/
def lisInc (seq : List PwalnEntry) : List PwalnEntry :=
  longestSubsequenceImpl seq incFilter incQs incQe

/-- The reverse result `dec` computed by the wrapper (src/ipp.cpp:793-803). -/
def lisDec (seq : List PwalnEntry) : List PwalnEntry :=
  longestSubsequenceImpl seq decFilter decQs decQe

/-- The sanity-check loop over `inc` (src/ipp.cpp:819-824): starting from
`loc = 0`, each entry must satisfy `loc <= qryStart` and
`qryStart < qryEnd` (uint32 comparisons), then `loc` becomes its
`qryEnd`.  Returns whether all asserts pass. -/
def incChecks (loc : Nat) : List PwalnEntry → Bool
  | [] => true
  | e :: es => decide (loc ≤ e.qryStart) && decide (e.qryStart < e.qryEnd) && incChecks e.qryEnd es

/-- The sanity-check loop over `dec` (src/ipp.cpp:825-830): starting from
`loc = uint32 max`, each entry must satisfy `loc >= qryEnd` and
`qryStart > qryEnd`, then `loc` becomes its `qryStart`. -/
def decChecks (loc : Nat) : List PwalnEntry → Bool
  | [] => true
  | e :: es => decide (e.qryEnd ≤ loc) && decide (e.qryEnd < e.qryStart) && decChecks e.qryStart es

/-- The public wrapper `Ipp::longestSubsequence` (src/ipp.cpp:765-833):
compute `inc` and `dec` and return `inc` when `inc.size() >= dec.size()`,
else `dec`.  (The asserts are modelled separately by
`incChecks`/`decChecks` and by `longestSubsequenceChecked`.) -/
def longestSubsequence (seq : List PwalnEntry) : List PwalnEntry :=
  if (lisDec seq).length ≤ (lisInc seq).length then lisInc seq else lisDec seq

/-- The wrapper with its abnormal terminations made explicit: the
always-on asserts of src/ipp.cpp:819-830 abort on failure.  (The
undefined `m.back()` read of the helper — `longestSubsequenceImplUB` —
reads garbage but the value is unused, so execution observably
continues; it is tracked separately for the safety claim.) -/
def longestSubsequenceChecked (seq : List PwalnEntry) :
    Except Fault (List PwalnEntry) :=
  if incChecks 0 (lisInc seq) = false then .error .assertFail
  else if decChecks (2 ^ 32 - 1) (lisDec seq) = false then .error .assertFail
  else .ok (longestSubsequence seq)

/-- Whether the wrapper's two helper calls perform the undefined
out-of-bounds `m.back()` read (src/ipp.cpp:755): this happens exactly
when `seq` is nonempty and one of the two strand filters rejects every
element. -/
def longestSubsequenceHitsUB (seq : List PwalnEntry) : Bool :=
  longestSubsequenceImplUB seq incFilter incQs incQe ||
  longestSubsequenceImplUB seq decFilter decQs decQe

/-! ## Anchor finder (src/ipp.cpp:496-679)

`Ipp::getAnchors` works on `pwaln.at(refCoords.chrom)` — a `std::map`
from chromosome id to the entry list, modelled as an association list.
The upstream candidate container is
`std::set<PwalnEntry, compGreaterRefEnd>` — ordered by *descending*
`refEnd` only, so two entries with equal `refEnd` are equivalent and the
second insert is a no-op; modelled by `setInsertByRefEndDesc`. -/

/-- A per-species-pair pwaln: `ref_chrom → sorted entry list`. -/
abbrev Pwaln := List (Nat × List PwalnEntry)

/-- `minn` of src/ipp.cpp:511. -/
def minn : Nat := 5

/-- `topn` of src/ipp.cpp:512. -/
def topn : Nat := 20

/-- Insertion into `std::set<PwalnEntry, compGreaterRefEnd>`
(src/ipp.cpp:514-524, 531): keeps the list strictly descending by
`refEnd`; an entry whose `refEnd` is already present compares equivalent
and is not inserted. -/
def setInsertByRefEndDesc : List PwalnEntry → PwalnEntry → List PwalnEntry
  | [], e => [e]
  | x :: xs, e =>
    if x.refEnd < e.refEnd then e :: x :: xs
    else if e.refEnd < x.refEnd then x :: setInsertByRefEndDesc xs e
    else x :: xs

/-- State of the neighbor scan of src/ipp.cpp:523-556: the three
candidate buckets plus the early-exit flag for the `break` once `topn`
downstream candidates were collected. -/
structure ScanState where
  ups : List PwalnEntry
  ovAln : List PwalnEntry
  downs : List PwalnEntry
  stopped : Bool
  deriving Repr

/-- One iteration of the neighbor scan (src/ipp.cpp:527-556). -/
def scanStep (refLoc : Nat) (st : ScanState) (e : PwalnEntry) : ScanState :=
  if st.stopped then st
  else if e.refEnd ≤ refLoc then
    let ups := setInsertByRefEndDesc st.ups e
    let ups := if 10 * topn < ups.length then ups.take topn else ups
    { st with ups := ups }
  else if refLoc < e.refStart then
    let downs := st.downs ++ [e]
    { st with downs := downs, stopped := decide (downs.length = topn) }
  else
    { st with ovAln := st.ovAln ++ [e] }

/-- The whole neighbor scan over one chromosome's entry list. -/
def scanAnchors (entries : List PwalnEntry) (refLoc : Nat) : ScanState :=
  entries.foldl (scanStep refLoc) ⟨[], [], [], false⟩

/-- The final trim of the upstream bucket (src/ipp.cpp:559-562). -/
def upstreamCandidates (entries : List PwalnEntry) (refLoc : Nat) : List PwalnEntry :=
  let u := (scanAnchors entries refLoc).ups
  if topn < u.length then u.take topn else u

/-- Occurrence counting for the major-chromosome filter
(src/ipp.cpp:363-379).  The `std::unordered_map` iteration order is
unspecified; we model it as first-insertion order, which is one allowed
execution. -/
def bumpCount : List (Nat × Nat) → Nat → List (Nat × Nat)
  | [], c => [(c, 1)]
  | (k, n) :: rest, c =>
    if k = c then (k, n + 1) :: rest else (k, n) :: bumpCount rest c

/-- `computeMajorChrom` (src/ipp.cpp:381-396): the `qry_chrom` with the
highest count over the three buckets (counted in the order
`ovAln, upstream, downstream` as at src/ipp.cpp:566-567); ties keep the
earlier chromosome. -/
def computeMajorChrom (ov ups downs : List PwalnEntry) : Nat :=
  let counts := (ov ++ ups ++ downs).foldl (fun acc e => bumpCount acc e.qryChrom) []
  (counts.foldl (fun best p => if best.2 < p.2 then p else best) (0, 0)).1

/-- `removeEntriesWithNonMajorQryChromosome` (src/ipp.cpp:398-408). -/
def removeNonMajor (l : List PwalnEntry) (major : Nat) : List PwalnEntry :=
  l.filter (fun e => decide (e.qryChrom = major))

/-- `compLessRefStart` (src/ipp.cpp:588-592): lexicographic on
`(refStart, refEnd)`. -/
def ltRef (a b : PwalnEntry) : Bool :=
  decide (a.refStart < b.refStart) ||
    (decide (a.refStart = b.refStart) && decide (a.refEnd < b.refEnd))

/-- Stable insertion used to model `std::sort` with `compLessRefStart`
(src/ipp.cpp:593); order among elements with equal keys is unspecified in
C++, this is one allowed execution. -/
def insSortedRef (e : PwalnEntry) : List PwalnEntry → List PwalnEntry
  | [] => [e]
  | x :: xs => if ltRef e x then e :: x :: xs else x :: insSortedRef e xs

/-- Sorting `closestAnchors` by ascending `(refStart, refEnd)`. -/
def sortByRef (l : List PwalnEntry) : List PwalnEntry :=
  l.foldr insSortedRef []

/-- State of the anchor-selection loop (src/ipp.cpp:610-645). -/
structure SelState where
  up : Option PwalnEntry
  ov : Option PwalnEntry
  down : Option PwalnEntry
  brk : Bool
  deriving Repr

/-- `absDiff` (src/ipp.cpp:631-633). -/
def absDiff (a b : Nat) : Nat := if b < a then a - b else b - a

/-- One iteration of the anchor-selection loop (src/ipp.cpp:613-645).
Note the overlap branch translates the C++ verbatim, including its
swapped `minDistNew`/`minDistOld` naming: `minDistNew` is computed from
the *current* candidate and `minDistOld` from the *new* anchor, so the
candidate is replaced when the current one is closer. -/
def selStep (refLoc : Nat) (st : SelState) (a : PwalnEntry) : SelState :=
  if st.brk then st
  else if a.refEnd ≤ refLoc then
    match st.up with
    | none => { st with up := some a }
    | some u => if u.refEnd < a.refEnd then { st with up := some a } else st
  else if refLoc < a.refStart then
    match st.down with
    | none => { st with down := some a, brk := true }
    | some d =>
      if a.refStart < d.refStart then { st with down := some a, brk := true } else st
  else
    match st.ov with
    | none => { st with ov := some a }
    | some o =>
      let minDistNew := min (absDiff o.refStart refLoc) (absDiff o.refEnd refLoc)
      let minDistOld := min (absDiff a.refStart refLoc) (absDiff a.refEnd refLoc)
      if minDistNew < minDistOld then { st with ov := some a } else st

/-- `Ipp::getAnchors` (src/ipp.cpp:496-679).  `pwaln.at(refCoords.chrom)`
throws when the chromosome has no bucket (`Fault.mapAtMiss`); the
sanity asserts inside the collinearity wrapper abort on failure
(`Fault.assertFail`); all regular "no usable anchors" outcomes are
`.ok none`. -/
def getAnchors (pwaln : Pwaln) (refCoords : Coords) : Except Fault (Option Anchors) :=
  match List.lookup refCoords.chrom pwaln with
  | none => .error .mapAtMiss
  | some entries =>
    let refLoc := refCoords.loc
    let sc := scanAnchors entries refLoc
    let ups0 := if topn < sc.ups.length then sc.ups.take topn else sc.ups
    let major := computeMajorChrom sc.ovAln ups0 sc.downs
    let ups := removeNonMajor ups0 major
    let ov := removeNonMajor sc.ovAln major
    let downs := removeNonMajor sc.downs major
    if ups.length = 0 ∨ downs.length = 0 then .ok none
    else
      match longestSubsequenceChecked (sortByRef (ups ++ ov ++ downs)) with
      | .error f => .error f
      | .ok closest =>
        if closest.length < minn then .ok none
        else
          let sel := closest.foldl (selStep refLoc) ⟨none, none, none, false⟩
          match sel.ov with
          | some o => .ok (some ⟨o, o⟩)
          | none =>
            match sel.up, sel.down with
            | some u, some d => .ok (some ⟨u, d⟩)
            | _, _ => .ok none

/-! ## Loader (src/ipp.cpp:43-122)

`Ipp::loadPwalns` mutates the member state in place while parsing; the
embedding threads the full state and returns it alongside the result, so
that the state visible after a throw is the partially populated one the
C++ object keeps.  File bytes are a `List Nat`; `none` in place of the
byte list models a file that could not be opened.  Species and
chromosome names are byte strings (`List Nat`). -/

/-- A byte string (species or chromosome name). -/
abbrev SpName := List Nat

/-- Raw file contents. -/
abbrev Bytes := List Nat

/-- The nested `pwalns_` member: `sp1 → sp2 → ref_chrom → entries`. -/
abbrev PwState := List (SpName × List (SpName × Pwaln))

/-- The member state of `Ipp` touched by the loaders. -/
structure IppState where
  chroms : List SpName
  pwalns : PwState
  genomeSizes : List (SpName × Nat)
  deriving Repr

/-- The `std::runtime_error`s of the loader (src/ipp.cpp:26, 36, 77,
109, 119), plus the undefined `pwalnEntries[0]` read on an empty bucket
(src/ipp.cpp:112). -/
inductive LoadErr where
  | eofErr
  | trailing
  | ioOpen
  | vecIndex
  deriving DecidableEq, Repr

/-- `readInt<T>` (src/ipp.cpp:20-29): read `n` little-endian bytes, EOF
if fewer remain. -/
def readBytes (n : Nat) (input : Bytes) : Except LoadErr (List Nat × Bytes) :=
  if input.length < n then .error .eofErr else .ok (input.take n, input.drop n)

/-- Little-endian value of a byte list. -/
def leVal (bs : List Nat) : Nat := bs.foldr (fun b acc => b + 256 * acc) 0

/-- `readInt<uint8_t>`. -/
def readU8 (input : Bytes) : Except LoadErr (Nat × Bytes) :=
  match readBytes 1 input with
  | .error e => .error e
  | .ok (bs, rest) => .ok (leVal bs, rest)

/-- `readInt<uint16_t>`. -/
def readU16 (input : Bytes) : Except LoadErr (Nat × Bytes) :=
  match readBytes 2 input with
  | .error e => .error e
  | .ok (bs, rest) => .ok (leVal bs, rest)

/-- `readInt<uint32_t>`. -/
def readU32 (input : Bytes) : Except LoadErr (Nat × Bytes) :=
  match readBytes 4 input with
  | .error e => .error e
  | .ok (bs, rest) => .ok (leVal bs, rest)

/-- `readString` (src/ipp.cpp:31-39): `std::getline(file, s, 0)` — EOF
error when no NUL terminator remains. -/
def readCString (input : Bytes) : Except LoadErr (SpName × Bytes) :=
  if input.contains 0 then
    .ok (input.takeWhile (fun b => b != 0), (input.dropWhile (fun b => b != 0)).drop 1)
  else .error .eofErr

/-- One 20-byte `PwalnEntry` record
(`u32 u32 u32 u32 u16 u16`, little-endian, tightly packed). -/
def parsePwalnEntry (bs : List Nat) : PwalnEntry :=
  ⟨leVal (bs.take 4), leVal ((bs.drop 4).take 4), leVal ((bs.drop 8).take 4),
    leVal ((bs.drop 12).take 4), leVal ((bs.drop 16).take 2), leVal ((bs.drop 18).take 2)⟩

/-- The bulk-parsed entry vector (src/ipp.cpp:105-107). -/
def parseEntries : Nat → List Nat → List PwalnEntry
  | 0, _ => []
  | n + 1, bs => parsePwalnEntry (bs.take 20) :: parseEntries n (bs.drop 20)

/-- Pointwise update of an association list (writing through the C++
reference into the nested map). -/
def updAssoc {α : Type} (m : List (SpName × α)) (k : SpName) (f : α → α) :
    List (SpName × α) :=
  m.map (fun p => if p.1 = k then (p.1, f p.2) else p)

/-- `std::map::insert` (src/ipp.cpp:112): no-op when the key exists. -/
def insertIfAbsent (pw : Pwaln) (k : Nat) (v : List PwalnEntry) : Pwaln :=
  if (List.lookup k pw).isSome then pw else pw ++ [(k, v)]

/-- The chromosome-name loop (src/ipp.cpp:81-85); on error the names
pushed so far remain. -/
def readChroms : Nat → Bytes → List SpName → Except LoadErr Bytes × List SpName
  | 0, input, acc => (.ok input, acc)
  | n + 1, input, acc =>
    match readCString input with
    | .error e => (.error e, acc)
    | .ok (name, rest) => readChroms n rest (acc ++ [name])

/-- The per-chromosome-bucket loop (src/ipp.cpp:100-114). -/
def readBuckets (sp1 sp2 : SpName) :
    Nat → Bytes → PwState → Except LoadErr Bytes × PwState
  | 0, input, pw => (.ok input, pw)
  | k + 1, input, pw =>
    match readU32 input with
    | .error e => (.error e, pw)
    | .ok (numEntries, rest) =>
      if rest.length < 20 * numEntries then (.error .eofErr, pw)
      else
        let entries := parseEntries numEntries (rest.take (20 * numEntries))
        let rest2 := rest.drop (20 * numEntries)
        match entries with
        | [] => (.error .vecIndex, pw)
        | e0 :: _ =>
          readBuckets sp1 sp2 k rest2
            (updAssoc pw sp1 (fun m2 => updAssoc m2 sp2
              (fun pwa => insertIfAbsent pwa e0.refChrom entries)))

/-- The per-qry-species loop (src/ipp.cpp:95-115);
`pwalnsSp1[sp2]` default-constructs the inner map. -/
def readSp2 (sp1 : SpName) :
    Nat → Bytes → PwState → Except LoadErr Bytes × PwState
  | 0, input, pw => (.ok input, pw)
  | j + 1, input, pw =>
    match readCString input with
    | .error e => (.error e, pw)
    | .ok (sp2, rest) =>
      let pw2 := updAssoc pw sp1
        (fun m2 => if (List.lookup sp2 m2).isSome then m2 else m2 ++ [(sp2, [])])
      match readU32 rest with
      | .error e => (.error e, pw2)
      | .ok (numBuckets, rest2) =>
        match readBuckets sp1 sp2 numBuckets rest2 pw2 with
        | (.error e, pw3) => (.error e, pw3)
        | (.ok rest3, pw3) => readSp2 sp1 j rest3 pw3

/-- The per-ref-species loop (src/ipp.cpp:89-116); `pwalns_[sp1]`
default-constructs the outer entry. -/
def readSp1 : Nat → Bytes → PwState → Except LoadErr Bytes × PwState
  | 0, input, pw => (.ok input, pw)
  | i + 1, input, pw =>
    match readCString input with
    | .error e => (.error e, pw)
    | .ok (sp1, rest) =>
      let pw2 := if (List.lookup sp1 pw).isSome then pw else pw ++ [(sp1, [])]
      match readU8 rest with
      | .error e => (.error e, pw2)
      | .ok (numSp2, rest2) =>
        match readSp2 sp1 numSp2 rest2 pw2 with
        | (.error e, pw3) => (.error e, pw3)
        | (.ok rest3, pw3) => readSp1 i rest3 pw3

/-- `Ipp::loadPwalns` (src/ipp.cpp:43-122): clears `chroms_` and
`pwalns_` first (`genomeSizes_` is untouched), then parses; a throw
leaves whatever was populated so far; trailing bytes after the last
record are an error (src/ipp.cpp:118-121). -/
def loadPwalns (file : Option Bytes) (st0 : IppState) :
    Except LoadErr Unit × IppState :=
  let st := { st0 with chroms := [], pwalns := [] }
  match file with
  | none => (.error .ioOpen, st)
  | some input =>
    match readU16 input with
    | .error e => (.error e, st)
    | .ok (numChroms, rest) =>
      match readChroms numChroms rest [] with
      | (.error e, cs) => (.error e, { st with chroms := cs })
      | (.ok rest2, cs) =>
        match readU8 rest2 with
        | .error e => (.error e, { st with chroms := cs })
        | .ok (numSp1, rest3) =>
          match readSp1 numSp1 rest3 [] with
          | (.error e, pw) => (.error e, { st with chroms := cs, pwalns := pw })
          | (.ok rest4, pw) =>
            if rest4 = [] then (.ok (), { st with chroms := cs, pwalns := pw })
            else (.error .trailing, { st with chroms := cs, pwalns := pw })

/-! ## Worker dispatcher (src/ipp.cpp:180-251)

`Ipp::projectCoords` runs a worker that pops jobs from the back of the
shared vector (LIFO), invokes `projectCoord` (abstracted here as the
fallible job function `f`), and calls the callback under the lock; on an
exception it records it and returns.  The rethrow of the recorded
exception (src/ipp.cpp:246-249) sits *inside* the multi-thread branch
only; the inline branch (`nCores <= 1`, src/ipp.cpp:231-233) calls
`worker()` and returns.  Only the sequential inline branch is modelled —
the multi-thread branch is genuinely concurrent. -/

/-- The worker loop (src/ipp.cpp:194-229) on the already-reversed job
list: returns the `(coord, result)` callback sequence and the recorded
exception, if any (`hadWorkerException` / `workerException`). -/
def workerGo {R E : Type} (f : Coords → Except E R) :
    List Coords → List (Coords × R) → List (Coords × R) × Option E
  | [], acc => (acc, none)
  | c :: rest, acc =>
    match f c with
    | .error e => (acc, some e)
    | .ok r => workerGo f rest (acc ++ [(c, r)])

/-- One worker draining the whole job stack: jobs are popped from the
back of the vector, i.e. processed in reverse order. -/
def runWorker {R E : Type} (f : Coords → Except E R) (jobs : List Coords) :
    List (Coords × R) × Option E :=
  workerGo f jobs.reverse []

/-- `Ipp::projectCoords` with `nCores ≤ 1` (src/ipp.cpp:231-233): the
worker runs inline on the calling thread; its recorded exception is
dropped on return — the caller observes the callbacks and no
exception. -/
def projectCoordsInline {R E : Type} (f : Coords → Except E R) (jobs : List Coords) :
    List (Coords × R) × Option E :=
  ((runWorker f jobs).1, none)

/-! ## Multi-hop pathfinder (src/ipp.cpp:253-359)

`Ipp::projectCoord` runs a Dijkstra-style best-first search.  Species
identifiers (strings in the C++) are modelled as `Nat`; the species
graph `pwalns_` is reduced to its adjacency structure
`graph : List (Nat × List Nat)` (the `pwaln` payloads are only consumed
by `projectGenomicLocation`, which — together with the scaling factor
computed once at src/ipp.cpp:265 — is abstracted as the deterministic
hop function `hop refSp qrySp coords : Option (score × next coords)`;
its scores lie in `(0,1]`).  `double` scores are `ℚ`.  The
`std::priority_queue` with the `OrangeEntry` comparator (lexicographic
on `(score, species, coords)`, largest first) is a list with `popMax`;
among comparator-equal entries `popMax` prefers the earliest, one legal
refinement of the unspecified heap order. -/

/-- A priority-queue entry (`OrangeEntry`, src/ipp.cpp:271-286). -/
structure QEntry where
  score : ℚ
  species : Nat
  coords : Coords
  deriving DecidableEq, Repr

/-- `OrangeEntry::operator<`: lexicographic on `(score, species, coords)`. -/
def qLt (a b : QEntry) : Prop :=
  a.score < b.score ∨ (a.score = b.score ∧
    (a.species < b.species ∨ (a.species = b.species ∧
      (a.coords.chrom < b.coords.chrom ∨
        (a.coords.chrom = b.coords.chrom ∧ a.coords.loc < b.coords.loc)))))

instance (a b : QEntry) : Decidable (qLt a b) := by
  unfold qLt
  infer_instance

/-- Pop a maximal element (w.r.t. `qLt`) from the queue. -/
def popMax : List QEntry → Option (QEntry × List QEntry)
  | [] => none
  | x :: xs =>
    match popMax xs with
    | none => some (x, [])
    | some (m, rest) => if qLt x m then some (m, x :: rest) else some (x, xs)

/-- A `ShortestPath` entry (spec §3): score, predecessor species and the
coordinates in this species.  (The anchors payload carried by the C++
struct does not influence control flow and is omitted.) -/
structure PathEntry where
  score : ℚ
  prevSp : Option Nat
  coords : Coords
  deriving Repr

/-- The state of the search loop: the `shortestPath` map, the priority
queue and the recorded direct projection. -/
structure DState where
  sp : Nat → Option PathEntry
  queue : List QEntry
  direct : Option (ℚ × Coords)

/-- `CoordProjection`: the optional direct single-hop result plus the
full `shortestPath` map. -/
structure CoordProjection where
  direct : Option (ℚ × Coords)
  multi : Nat → Option PathEntry

/-- One neighbor iteration of the inner loop (src/ipp.cpp:312-355):
skip if the recorded path already beats the current score, project the
hop, record the direct projection when it is the `ref → qry` hop, then
store and push only on strict improvement. -/
def nbrStep (hop : Nat → Nat → Coords → Option (ℚ × Coords)) (refSp qrySp : Nat)
    (cur : QEntry) (st : DState) (nxt : Nat) : DState :=
  match st.sp nxt with
  | some it =>
    if cur.score ≤ it.score then st
    else
      match hop cur.species nxt cur.coords with
      | none => st
      | some sc =>
        let direct2 := if cur.species = refSp ∧ nxt = qrySp then some sc else st.direct
        let nxtScore := cur.score * sc.1
        if nxtScore ≤ it.score then { st with direct := direct2 }
        else
          ⟨Function.update st.sp nxt (some ⟨nxtScore, some cur.species, sc.2⟩),
            st.queue ++ [⟨nxtScore, nxt, sc.2⟩], direct2⟩
  | none =>
    match hop cur.species nxt cur.coords with
    | none => st
    | some sc =>
      let direct2 := if cur.species = refSp ∧ nxt = qrySp then some sc else st.direct
      let nxtScore := cur.score * sc.1
      ⟨Function.update st.sp nxt (some ⟨nxtScore, some cur.species, sc.2⟩),
        st.queue ++ [⟨nxtScore, nxt, sc.2⟩], direct2⟩

/-- The whole inner loop over the neighbors of the current species. -/
def processNbrs (hop : Nat → Nat → Coords → Option (ℚ × Coords)) (refSp qrySp : Nat)
    (cur : QEntry) (nbrs : List Nat) (st : DState) : DState :=
  nbrs.foldl (nbrStep hop refSp qrySp cur) st

/-- Outcome of the search loop: normal completion, a
`pwalns_.at(current.species)` miss (throws in the C++), or fuel
exhaustion (`loopGo` charges one fuel unit per queue pop, so
`≠ .fuelOut` bounds the number of pops). -/
inductive LoopRes where
  | done (proj : CoordProjection)
  | fault
  | fuelOut

/-- The main loop of `Ipp::projectCoord` (src/ipp.cpp:290-356): pop the
best entry, skip it if stale (a better path to its species was already
recorded), stop on the qry species, otherwise process all neighbors. -/
def loopGo (graph : List (Nat × List Nat)) (hop : Nat → Nat → Coords → Option (ℚ × Coords))
    (refSp qrySp : Nat) : Nat → DState → LoopRes
  | fuel, st =>
    match popMax st.queue with
    | none => .done ⟨st.direct, st.sp⟩
    | some (cur, rest) =>
      match fuel with
      | 0 => .fuelOut
      | f + 1 =>
        let st2 : DState := ⟨st.sp, rest, st.direct⟩
        let stale :=
          match st2.sp cur.species with
          | some rec2 => decide (cur.score < rec2.score)
          | none => false
        if stale then loopGo graph hop refSp qrySp f st2
        else if cur.species = qrySp then .done ⟨st2.direct, st2.sp⟩
        else
          match List.lookup cur.species graph with
          | none => .fault
          | some nbrs =>
            loopGo graph hop refSp qrySp f (processNbrs hop refSp qrySp cur nbrs st2)

/-- The initial state (src/ipp.cpp:267-288): `shortestPath[refSpecies] =
{1.0, "", refCoords}` and the queue seeded with `(1.0, refSpecies,
refCoords)`. -/
def initDState (refSp : Nat) (refCoords : Coords) : DState :=
  ⟨fun X => if X = refSp then some ⟨1, none, refCoords⟩ else none,
    [⟨1, refSp, refCoords⟩], none⟩

/-- `Ipp::projectCoord`, with fuel `|species|²` charged one unit per
pop; claim C6 shows this fuel is never exhausted. -/
def projectCoord (graph : List (Nat × List Nat))
    (hop : Nat → Nat → Coords → Option (ℚ × Coords))
    (refSp qrySp : Nat) (refCoords : Coords) : LoopRes :=
  loopGo graph hop refSp qrySp ((graph.map Prod.fst).length ^ 2) (initDState refSp refCoords)

/-- Well-formedness of the species graph: distinct ref-species keys,
the reference species present, and every neighbor list duplicate-free
and contained in the key set (each inner species of `pwalns_` also
appears as an outer key). -/
def GraphWF (graph : List (Nat × List Nat)) (refSp : Nat) : Prop :=
  (graph.map Prod.fst).Nodup ∧
  refSp ∈ graph.map Prod.fst ∧
  ∀ p ∈ graph, p.2.Nodup ∧ ∀ n ∈ p.2, n ∈ graph.map Prod.fst

/-- Scores of successful hops lie in `(0, 1]` (the distance-decay score
is `exp` of a nonpositive quantity). -/
def HopWF (hop : Nat → Nat → Coords → Option (ℚ × Coords)) : Prop :=
  ∀ a b c r, hop a b c = some r → 0 < r.1 ∧ r.1 ≤ 1

/-- Invariant bundle for claim C5: queue scores lie in `(0,1]`, the
reference species keeps its seeded score `1.0`, and any recorded direct
projection is dominated by the recorded path to the qry species. -/
def Inv5 (refSp qrySp : Nat) (st : DState) : Prop :=
  (∀ e ∈ st.queue, 0 < e.score ∧ e.score ≤ 1) ∧
  (∀ e ∈ st.queue, e.species = refSp → e.score = 1) ∧
  (∃ r, st.sp refSp = some r ∧ r.score = 1) ∧
  (∀ d, st.direct = some d → ∃ e, st.sp qrySp = some e ∧ d.1 ≤ e.score)

/-- Two distinct queue entries for the same species never carry equal
scores (claim C6): each push to a species strictly improves its record,
so pushed scores for one species are strictly increasing. -/
def qSameNe (a b : QEntry) : Prop := a.species = b.species → a.score ≠ b.score

/-- Invariant bundle for claim C6, relative to the set `A` of processed
species and the score `lam` of the most recently popped entry: queue
scores are positive and bounded by `lam`; every queued entry has a
record at least its own score; processed species have records at least
`lam`; queued entries for processed species are strictly below their
record (so such pops are stale); and `qSameNe` holds pairwise. -/
def Inv6 (A : Finset Nat) (lam : ℚ) (st : DState) : Prop :=
  (∀ e ∈ st.queue, 0 < e.score) ∧
  (∀ e ∈ st.queue, e.score ≤ lam) ∧
  (∀ e ∈ st.queue, ∃ r, st.sp e.species = some r ∧ e.score ≤ r.score) ∧
  (∀ X ∈ A, ∃ r, st.sp X = some r ∧ lam ≤ r.score) ∧
  (∀ e ∈ st.queue, e.species ∈ A → ∃ r, st.sp e.species = some r ∧ e.score < r.score) ∧
  List.Pairwise qSameNe st.queue

/-- The termination potential for claim C6: `(n - |A|) * (n - 1)` plus
the queue length — it strictly decreases at every pop. -/
def dBound (n : Nat) (A : Finset Nat) (st : DState) : Nat :=
  (n - A.card) * (n - 1) + st.queue.length

/-! ### Verification predicates for the upstream candidate set -/

/-- Strict descending order by `refEnd` — the `std::set` order of
`compGreaterRefEnd`. -/
def gtRefEnd (a b : PwalnEntry) : Prop := b.refEnd < a.refEnd

/-- The first upstream entry of `p` bearing `refEnd = r` in scan order. -/
def firstUpstream (p : List PwalnEntry) (refLoc r : Nat) : Option PwalnEntry :=
  (p.filter (fun z => decide (z.refEnd ≤ refLoc) && decide (z.refEnd = r))).head?

/-- Invariant of the upstream candidate container relative to the scanned
prefix `full`: strictly descending by `refEnd`, and every member is
upstream and either the first scanned entry with its `refEnd` or
outranked by at least `topn` members with larger `refEnd`. -/
def UpsOK (full : List PwalnEntry) (refLoc : Nat) (ups : List PwalnEntry) : Prop :=
  List.Pairwise gtRefEnd ups ∧
  ∀ x ∈ ups, x.refEnd ≤ refLoc ∧
    (firstUpstream full refLoc x.refEnd = some x ∨
      topn ≤ (ups.filter (fun y => decide (x.refEnd < y.refEnd))).length)

/-- Companion invariant: every `refEnd` value seen among upstream entries
of the prefix `p` is either still represented in the container or
outranked by at least `topn` larger `refEnd`s. -/
def UpsL (p : List PwalnEntry) (refLoc : Nat) (ups : List PwalnEntry) : Prop :=
  ∀ r, (∃ z ∈ p, z.refEnd ≤ refLoc ∧ z.refEnd = r) →
    ((∃ x ∈ ups, x.refEnd = r) ∨
      topn ≤ (ups.filter (fun y => decide (r < y.refEnd))).length)

/-! ## Single-hop projection (src/ipp.cpp:412-494) -/

/-- `GenomicProjectionResult` of the missing header, per spec §3:
`(score, next_coords, anchors)`.  `double` scores are modelled as `ℚ`. -/
structure GenomicProjectionResult where
  score : ℚ
  nextCoords : Coords
  anchors : Anchors
  deriving DecidableEq, Repr

/-- Species → species → chrom → entries.  Species identifiers are
arbitrary strings in the C++; they are modelled as `Nat` keys of
association lists, preserving the map semantics. -/
abbrev PwalnStore := List (Nat × List (Nat × Pwaln))

/-- Species → genome size (`genomeSizes_`). -/
abbrev GenomeSizes := List (Nat × Nat)

/-- Round a rational to the nearest integer, ties to even — the
IEEE-754 default rounding applied to a value scaled to integer
precision. -/
def roundNE (y : ℚ) : ℤ :=
  let n := ⌊y⌋
  if y - n < 1/2 then n
  else if (1 : ℚ)/2 < y - n then n + 1
  else if n % 2 = 0 then n else n + 1

/-- Fuel-bounded base-2 logarithm: `log2F fuel n` is `⌊log2 n⌋` for
`1 ≤ n < 2^fuel` (structural recursion on the fuel so that it reduces
by iota; `log2F n n` is always exact since `n < 2^n`). -/
def log2F : ℕ → ℕ → ℕ
  | 0, _ => 0
  | fuel+1, n => if n ≤ 1 then 0 else log2F fuel (n / 2) + 1

/-- Binary exponent of a positive rational: the `e` with
`2^e ≤ x < 2^(e+1)`, computed from the bit lengths of numerator and
denominator (the test `x < 2^e0` is phrased as an equivalent
cross-multiplied natural-number comparison). -/
def flExp (x : ℚ) : ℤ :=
  let a := x.num.toNat
  let b := x.den
  let e0 : ℤ := (log2F a a : ℤ) - (log2F b b : ℤ)
  if a * 2 ^ (-e0).toNat < b * 2 ^ e0.toNat then e0 - 1 else e0

/-- Round a nonnegative rational to the nearest IEEE-754 `double`
(binary64: round-to-nearest, ties-to-even, 53-bit significand): the
value is scaled so its significand lies in `[2^52, 2^53)` and rounded
with `roundNE`.  Faithful for magnitudes below `2^53`; every
intermediate of the interpolation in `projectGenomicLocation` is below
`2^34` for `uint32` inputs.  Nonpositive inputs (only an exact `0.0`
occurs in the program) map to `0`. -/
def fl (x : ℚ) : ℚ :=
  if x ≤ 0 then 0
  else
    let s := (52 - flExp x).toNat
    (roundNE (x * ((2 ^ s : ℕ) : ℚ)) : ℚ) / ((2 ^ s : ℕ) : ℚ)

/-- `Ipp::projectGenomicLocation` (src/ipp.cpp:412-494), parameterized by
`scoreFn` which abstracts `Ipp::projectionScore`
(`exp(-d / (genomeSize*scalingFactor))`, transcendental and irrelevant to
the claims below); its arguments are
`(refLoc, leftBound, rightBound, genomeSize, scalingFactor)`.
The `assert`s of src/ipp.cpp:450, 471 and 484 abort on failure; the
`Nat` subtractions after them mirror the `uint32` subtractions, which the
asserts guarantee do not wrap.  The interpolation
`qryLeftBound + relativeRefLoc*(qryRightBound - qryLeftBound)`
(src/ipp.cpp:485-488) is `double` arithmetic: the `uint32` differences
convert to `double` exactly, then the division, the multiplication and
the addition each round to the nearest `double` (`fl`), and the final
`uint32` cast truncates the nonnegative result toward zero, i.e. takes
the floor. -/
def projectGenomicLocation (pwalns : PwalnStore) (genomeSizes : GenomeSizes)
    (scoreFn : Nat → Nat → Nat → Nat → ℚ → ℚ)
    (refSp qrySp : Nat) (refCoords : Coords) (scalingFactor : ℚ) :
    Except Fault (Option GenomicProjectionResult) :=
  match List.lookup refSp pwalns with
  | none => .ok none
  | some m1 =>
    match List.lookup qrySp m1 with
    | none => .ok none
    | some pwaln =>
      match getAnchors pwaln refCoords with
      | .error f => .error f
      | .ok none => .ok none
      | .ok (some anchors) =>
        let refLoc := refCoords.loc
        let isRev := anchors.upstream.isQryReversed
        let qryUpStart :=
          if isRev then anchors.downstream.qryEnd else anchors.upstream.qryStart
        let qryUpEnd :=
          if isRev then anchors.downstream.qryStart else anchors.upstream.qryEnd
        if qryUpStart < qryUpEnd then
          if anchors.upstream = anchors.downstream then
            -- Case A: refLoc lies on an alignment (src/ipp.cpp:452-462)
            let refLeft := anchors.upstream.refStart
            let refRight := anchors.upstream.refEnd
            if refLeft ≤ refLoc ∧ refLoc < refRight then
              let qryLoc := (Int.floor (fl (((qryUpStart : Nat) : ℚ) +
                fl (fl (((refLoc - refLeft : Nat) : ℚ) / ((refRight - refLeft : Nat) : ℚ)) *
                  ((qryUpEnd - qryUpStart : Nat) : ℚ))))).toNat
              .ok (some ⟨1, ⟨anchors.upstream.qryChrom, qryLoc⟩, anchors⟩)
            else .error .assertFail
          else
            -- Case B: distinct flanks (src/ipp.cpp:463-483)
            let qryDownStart :=
              if isRev then anchors.upstream.qryEnd else anchors.downstream.qryStart
            let qryDownEnd :=
              if isRev then anchors.upstream.qryStart else anchors.downstream.qryEnd
            if qryUpEnd ≤ qryDownStart ∧ qryDownStart < qryDownEnd then
              match List.lookup refSp genomeSizes with
              | none => .error .mapAtMiss
              | some gsize =>
                let refLeft := anchors.upstream.refEnd
                let refRight := anchors.downstream.refStart
                let score := scoreFn refLoc refLeft refRight gsize scalingFactor
                if refLeft ≤ refLoc ∧ refLoc < refRight then
                  let qryLoc := (Int.floor (fl (((qryUpEnd : Nat) : ℚ) +
                    fl (fl (((refLoc - refLeft : Nat) : ℚ) / ((refRight - refLeft : Nat) : ℚ)) *
                      ((qryDownStart - qryUpEnd : Nat) : ℚ))))).toNat
                  .ok (some ⟨score, ⟨anchors.upstream.qryChrom, qryLoc⟩, anchors⟩)
                else .error .assertFail
            else .error .assertFail
        else .error .assertFail

/-- Follows the spec's words (§4.4 steps 3, 6, 7), for the refinement
claim about Case B: `frac = (loc − ref_left) / (ref_right − ref_left)`
with `ref_left = upstream.ref_end`, `ref_right = downstream.ref_start`,
and `qry_loc = qry_left + floor(frac · (qry_right − qry_left))` with
`qry_left = qry_up_end`, `qry_right` the forward-strand
`downstream.qry_start` (or `upstream.qry_end` when reversed). -/
def specCaseBQryLoc (up down : PwalnEntry) (loc : Nat) : Nat :=
  let isRev := up.qryStart > up.qryEnd
  let refLeft := up.refEnd
  let refRight := down.refStart
  let qryLeft := if isRev then down.qryStart else up.qryEnd
  let qryRight := if isRev then up.qryEnd else down.qryStart
  let frac : ℚ := ((loc : ℚ) - (refLeft : ℚ)) / ((refRight : ℚ) - (refLeft : ℚ))
  qryLeft + (Int.floor (frac * ((qryRight : ℚ) - (qryLeft : ℚ)))).toNat

/-! # Theorems -/

section LisLemmas

variable (seq : List PwalnEntry) (filt : PwalnEntry → Bool) (qs qe : PwalnEntry → Int)

theorem chainOK_mono {bound bound' : Nat} {prev v len} (h : bound ≤ bound')
    (hc : ChainOK seq filt qs qe bound prev v len) :
    ChainOK seq filt qs qe bound' prev v len := by
  refine ⟨fun j hj => ⟨lt_of_lt_of_le (hc.1 j hj).1 h, (hc.1 j hj).2⟩, hc.2⟩

theorem backtraceIdx_update_of_ne {prev : Nat → Nat} {v len i w}
    (h : ∀ j ∈ backtraceIdx prev v len, j ≠ i) :
    backtraceIdx (Function.update prev i w) v len = backtraceIdx prev v len := by
  induction len generalizing v with
  | zero => rfl
  | succ n ih =>
    have hv : v ≠ i := h v (by simp [backtraceIdx])
    have hrec : ∀ j ∈ backtraceIdx prev (prev v) n, j ≠ i := by
      intro j hj
      exact h j (by simp [backtraceIdx, hj])
    simp only [backtraceIdx, Function.update_noteq hv]
    rw [ih hrec]

/-- `ChainOK` is unaffected by updating `prev` at an index at or above the
bound. -/
theorem chainOK_update {bound : Nat} {prev v len i w}
    (hc : ChainOK seq filt qs qe bound prev v len) (hi : bound ≤ i) :
    ChainOK seq filt qs qe bound (Function.update prev i w) v len := by
  have hne : ∀ j ∈ backtraceIdx prev v len, j ≠ i := by
    intro j hj
    have := (hc.1 j hj).1
    omega
  refine ⟨?_, ?_⟩
  · rw [backtraceIdx_update_of_ne hne]; exact hc.1
  · rw [backtraceIdx_update_of_ne hne]; exact hc.2

/-- Specification of the binary search (src/ipp.cpp:732-741). -/
theorem lisBsearch_spec (m : List Nat) (qsi : Int) :
    ∀ d u v, v - u = d → u ≤ v →
      (0 < u → qe (seqGet seq (m.getD (u - 1) 0)) ≤ qsi) →
      u ≤ lisBsearch seq qe m qsi u v ∧ lisBsearch seq qe m qsi u v ≤ v ∧
        (0 < lisBsearch seq qe m qsi u v →
          qe (seqGet seq (m.getD (lisBsearch seq qe m qsi u v - 1) 0)) ≤ qsi) := by
  intro d
  induction d using Nat.strong_induction_on with
  | _ d ih =>
    intro u v hd huv hu
    rw [lisBsearch]
    by_cases h : u < v
    · simp only [h, dif_pos]
      set mid := (u + v) / 2 with hmid
      have hmlt : mid < v := by omega
      have hmge : u ≤ mid := by omega
      by_cases hc : qe (seqGet seq (m.getD mid 0)) ≤ qsi
      · simp only [hc, if_pos]
        have := ih (v - (mid + 1)) (by omega) (mid + 1) v rfl (by omega)
          (fun _ => by simpa using hc)
        exact ⟨by omega, this.2.1, this.2.2⟩
      · simp only [hc, if_neg, not_false_iff]
        have := ih (mid - u) (by omega) u mid rfl (by omega) hu
        exact ⟨this.1, by omega, this.2.2⟩
    · simp only [h, dif_neg, not_false_iff]
      exact ⟨le_refl u, by omega, hu⟩

theorem getLastD_eq_getD_length_sub_one {l : List Nat} (h : l ≠ []) (d : Nat) :
    l.getLastD d = l.getD (l.length - 1) d := by
  have hl : l.length - 1 < l.length := by
    cases l with
    | nil => simp at h
    | cons a t => simp
  rw [List.getD_eq_getElem l d hl, List.getLastD_eq_getLast?, List.getLast?_eq_getElem?,
    List.getElem?_eq_getElem hl]
  rfl

theorem backtraceIdx_getLast_concat {prev : Nat → Nat} {v len : Nat} :
    (backtraceIdx prev v (len + 1)).getLast? = some v := by
  simp only [backtraceIdx]
  exact List.getLast?_concat _

/-- Pushing `i = k` at the end of `m` with `prev[k] = m.back()`
(src/ipp.cpp:721-724) preserves the invariant. -/
theorem stInv_append {k : Nat} {st : LisState} (h : StInv seq filt qs qe k st)
    (hmne : st.m ≠ []) (hfk : filt (seqGet seq k) = true)
    (hch : qe (seqGet seq (st.m.getLastD 0)) ≤ qs (seqGet seq k)) :
    StInv seq filt qs qe (k + 1)
      ⟨st.m ++ [k], Function.update st.prev k (st.m.getLastD 0)⟩ := by
  intro u hu
  simp only [List.length_append, List.length_cons, List.length_nil] at hu
  rcases Nat.lt_or_ge u st.m.length with hlt | hge
  · have hgd : (st.m ++ [k]).getD u 0 = st.m.getD u 0 := List.getD_append _ _ _ _ hlt
    rw [hgd]
    exact chainOK_mono seq filt qs qe (Nat.le_succ k)
      (chainOK_update seq filt qs qe (h u hlt) (le_refl k))
  · have hue : u = st.m.length := by omega
    subst hue
    have hgd : (st.m ++ [k]).getD st.m.length 0 = k := by
      rw [List.getD_append_right _ _ _ _ (le_refl _)]
      simp
    rw [hgd]
    have hmpos : 0 < st.m.length := List.length_pos.mpr hmne
    have hmlen : st.m.length - 1 + 1 = st.m.length := by omega
    have hbold : ChainOK seq filt qs qe k st.prev (st.m.getLastD 0) st.m.length := by
      rw [getLastD_eq_getD_length_sub_one hmne]
      have := h (st.m.length - 1) (by omega)
      rwa [hmlen] at this
    have hne : ∀ j ∈ backtraceIdx st.prev (st.m.getLastD 0) st.m.length, j ≠ k := by
      intro j hj
      have := (hbold.1 j hj).1
      omega
    constructor
    · intro j hj
      simp only [backtraceIdx, Function.update_same] at hj
      rw [backtraceIdx_update_of_ne hne] at hj
      rcases List.mem_append.mp hj with hj1 | hj2
      · refine ⟨?_, (hbold.1 j hj1).2⟩
        have := (hbold.1 j hj1).1
        omega
      · have hjk : j = k := by simpa using hj2
        rw [hjk]
        exact ⟨Nat.lt_succ_self k, hfk⟩
    · simp only [backtraceIdx, Function.update_same]
      rw [backtraceIdx_update_of_ne hne]
      refine List.Chain'.append hbold.2 (by simp) ?_
      intro x hx y hy
      have hlast := @backtraceIdx_getLast_concat st.prev (st.m.getLastD 0) (st.m.length - 1)
      rw [hmlen] at hlast
      rw [hlast] at hx
      have hx' : st.m.getLastD 0 = x := by simpa using hx
      have hy' : k = y := by simpa using hy
      subst hx'
      subst hy'
      exact hch

/-- Overwriting `m[r] := k` with `prev[k] = m[r-1]` when `r > 0`
(src/ipp.cpp:743-750) preserves the invariant. -/
theorem stInv_set {k : Nat} {st : LisState} (h : StInv seq filt qs qe k st)
    (hfk : filt (seqGet seq k) = true) (r : Nat) (hr : r < st.m.length)
    (hlink : 0 < r → qe (seqGet seq (st.m.getD (r - 1) 0)) ≤ qs (seqGet seq k)) :
    StInv seq filt qs qe (k + 1)
      ⟨st.m.set r k,
       if 0 < r then Function.update st.prev k (st.m.getD (r - 1) 0) else st.prev⟩ := by
  intro u hu
  simp only [List.length_set] at hu
  have hmk : ∀ j, j ∈ st.m → j < k := by
    intro j hj
    obtain ⟨w, hw, hwj⟩ := List.mem_iff_getElem.mp hj
    have := (h w hw).1 j
    rw [← List.getD_eq_getElem st.m 0 hw] at hwj
    refine (this ?_).1
    subst hwj
    simp [backtraceIdx]
  by_cases hur : u = r
  · subst hur
    have hgd : (st.m.set u k).getD u 0 = k := by
      rw [List.getD_eq_getElem _ 0 (by simpa using hu)]
      simp [List.getElem_set_self]
    rw [hgd]
    rcases Nat.eq_zero_or_pos u with hu0 | hupos
    · subst hu0
      rw [if_neg (lt_irrefl 0)]
      refine ⟨?_, by simp [backtraceIdx]⟩
      intro j hj
      simp only [backtraceIdx, List.nil_append, List.mem_singleton] at hj
      rw [hj]
      exact ⟨Nat.lt_succ_self k, hfk⟩
    · rw [if_pos hupos]
      have hprev : ChainOK seq filt qs qe k st.prev (st.m.getD (u - 1) 0) u := by
        have := h (u - 1) (by omega)
        have hu1 : u - 1 + 1 = u := by omega
        rwa [hu1] at this
      have hne : ∀ j ∈ backtraceIdx st.prev (st.m.getD (u - 1) 0) u, j ≠ k := by
        intro j hj
        have := (hprev.1 j hj).1
        omega
      have hu1 : u - 1 + 1 = u := by omega
      constructor
      · intro j hj
        simp only [backtraceIdx, Function.update_same] at hj
        rw [backtraceIdx_update_of_ne hne] at hj
        rcases List.mem_append.mp hj with hj1 | hj2
        · refine ⟨?_, (hprev.1 j hj1).2⟩
          have := (hprev.1 j hj1).1
          omega
        · have hjk : j = k := by simpa using hj2
          rw [hjk]
          exact ⟨Nat.lt_succ_self k, hfk⟩
      · simp only [backtraceIdx, Function.update_same]
        rw [backtraceIdx_update_of_ne hne]
        refine List.Chain'.append hprev.2 (by simp) ?_
        intro x hx y hy
        have hlast := @backtraceIdx_getLast_concat st.prev (st.m.getD (u - 1) 0) (u - 1)
        rw [hu1] at hlast
        rw [hlast] at hx
        have hx' : st.m.getD (u - 1) 0 = x := by simpa using hx
        have hy' : k = y := by simpa using hy
        subst hx'
        subst hy'
        exact hlink hupos
  · have hgd : (st.m.set r k).getD u 0 = st.m.getD u 0 := by
      rw [List.getD_eq_getElem _ 0 (by simpa using hu),
          List.getD_eq_getElem _ 0 (by simpa using hu)]
      exact List.getElem_set_of_ne (by omega) _ (by simpa using hu)
    rw [hgd]
    have hold := h u (by simpa using hu)
    rcases Nat.eq_zero_or_pos r with hr0 | hrpos
    · rw [hr0, if_neg (lt_irrefl 0)]
      exact chainOK_mono seq filt qs qe (Nat.le_succ k) hold
    · rw [if_pos hrpos]
      exact chainOK_mono seq filt qs qe (Nat.le_succ k)
        (chainOK_update seq filt qs qe hold (le_refl k))

/-- One loop iteration preserves the invariant. -/
theorem lisStep_inv {k : Nat} {st : LisState} (h : StInv seq filt qs qe k st) :
    StInv seq filt qs qe (k + 1) (lisStep seq filt qs qe st k) := by
  unfold lisStep
  by_cases hf : filt (seqGet seq k) = false
  · rw [if_pos hf]
    intro u hu
    exact chainOK_mono seq filt qs qe (Nat.le_succ k) (h u hu)
  · rw [if_neg hf]
    have hfk : filt (seqGet seq k) = true := by
      cases hb : filt (seqGet seq k) with
      | false => exact absurd hb hf
      | true => rfl
    by_cases hm : st.m = []
    · rw [if_pos hm]
      intro u hu
      simp only [List.length_cons, List.length_nil] at hu
      have hu0 : u = 0 := by omega
      subst hu0
      refine ⟨?_, by simp [backtraceIdx]⟩
      intro j hj
      simp only [backtraceIdx, List.nil_append, List.mem_singleton] at hj
      rw [hj]
      exact ⟨Nat.lt_succ_self k, hfk⟩
    · rw [if_neg hm]
      dsimp only
      by_cases hch : qe (seqGet seq (st.m.getLastD 0)) ≤ qs (seqGet seq k)
      · rw [if_pos hch]
        exact stInv_append seq filt qs qe h hm hfk hch
      · rw [if_neg hch]
        have hmlen : 0 < st.m.length := List.length_pos.mpr hm
        have hspec := lisBsearch_spec seq qe st.m (qs (seqGet seq k))
          (st.m.length - 1 - 0) 0 (st.m.length - 1) rfl (by omega) (by omega)
        set r := lisBsearch seq qe st.m (qs (seqGet seq k)) 0 (st.m.length - 1) with hrdef
        by_cases hcmp : qe (seqGet seq k) < qe (seqGet seq (st.m.getD r 0))
        · rw [if_pos hcmp]
          exact stInv_set seq filt qs qe h hfk r (by omega) (fun h0 => hspec.2.2 h0)
        · rw [if_neg hcmp]
          intro u hu
          exact chainOK_mono seq filt qs qe (Nat.le_succ k) (h u hu)

/-- The invariant holds after the whole main loop. -/
theorem lisRun_inv :
    StInv seq filt qs qe seq.length (lisRun seq filt qs qe) := by
  have key : ∀ k : Nat,
      StInv seq filt qs qe k
        ((List.range k).foldl (lisStep seq filt qs qe) ⟨[], fun _ => 0⟩) := by
    intro k
    induction k with
    | zero =>
      intro u hu
      simp at hu
    | succ n ih =>
      rw [List.range_succ, List.foldl_append]
      exact lisStep_inv seq filt qs qe ih
  exact key seq.length

/-- Main correctness fact about the helper: its result is chained in the
query dimension, every element passes the filter, and every element comes
from the input sequence. -/
theorem longestSubsequenceImpl_good :
    List.Chain' (fun a b => qe a ≤ qs b) (longestSubsequenceImpl seq filt qs qe) ∧
    ∀ e ∈ longestSubsequenceImpl seq filt qs qe, filt e = true ∧ e ∈ seq := by
  unfold longestSubsequenceImpl
  by_cases hz : seq.length = 0
  · simp [hz]
  · rw [if_neg hz]
    dsimp only
    set st := lisRun seq filt qs qe with hst
    have hinv := lisRun_inv seq filt qs qe
    rw [← hst] at hinv
    cases hm : st.m with
    | nil => simp
    | cons a t =>
      have hmne : st.m ≠ [] := by rw [hm]; simp
      have hmlen : 0 < st.m.length := List.length_pos.mpr hmne
      have hchain : ChainOK seq filt qs qe seq.length st.prev
          (st.m.getD (st.m.length - 1) 0) (st.m.length - 1 + 1) := hinv _ (by omega)
      rw [← getLastD_eq_getD_length_sub_one hmne] at hchain
      have hlen1 : st.m.length - 1 + 1 = st.m.length := by omega
      rw [hlen1] at hchain
      have hmr : (a :: t).getLastD 0 = st.m.getLastD 0 := by rw [hm]
      have hml : (a :: t).length = st.m.length := by rw [hm]
      constructor
      · rw [List.chain'_map, hmr, hml]
        exact hchain.2
      · intro e he
        rw [hmr, hml] at he
        obtain ⟨j, hj, hje⟩ := List.mem_map.mp he
        have hj' := hchain.1 j hj
        refine ⟨hje ▸ hj'.2, ?_⟩
        rw [← hje]
        unfold seqGet
        rw [List.getD_eq_getElem seq default hj'.1]
        exact List.getElem_mem _

end LisLemmas

theorem int32ofUInt32_of_lt {n : Nat} (h : n < 2 ^ 31) : int32ofUInt32 n = (n : Int) :=
  if_pos h

theorem int32_le_iff {a b : Nat} (ha : a < 2 ^ 31) (hb : b < 2 ^ 31) :
    int32ofUInt32 a ≤ int32ofUInt32 b ↔ a ≤ b := by
  rw [int32ofUInt32_of_lt ha, int32ofUInt32_of_lt hb]
  exact_mod_cast Iff.rfl

/-- If a list chains in the forward projections, all its elements are
forward-strand and well-formed, and all coordinates stay below `2^31`,
then the forward sanity-assert loop passes. -/
theorem incChecks_of_chain :
    ∀ (l : List PwalnEntry) (loc : Nat),
      List.Chain' (fun a b => incQe a ≤ incQs b) l →
      (∀ e ∈ l, (!e.isQryReversed) = true ∧ e.qryStart ≠ e.qryEnd ∧
        e.qryStart < 2 ^ 31 ∧ e.qryEnd < 2 ^ 31) →
      (∀ e, l.head? = some e → loc ≤ e.qryStart) →
      incChecks loc l = true := by
  intro l
  induction l with
  | nil => intro loc _ _ _; rfl
  | cons e es ih =>
    intro loc hchain hall hhead
    obtain ⟨hfwd, hne, hs31, he31⟩ := hall e (List.mem_cons_self e es)
    have h1 : loc ≤ e.qryStart := hhead e rfl
    have h2 : e.qryStart < e.qryEnd := by
      have : ¬ e.qryEnd < e.qryStart := by
        simpa [PwalnEntry.isQryReversed] using hfwd
      omega
    have h3 : incChecks e.qryEnd es = true := by
      refine ih e.qryEnd (hchain.tail) (fun x hx => hall x (List.mem_cons_of_mem e hx)) ?_
      intro x hx
      cases es with
      | nil => simp at hx
      | cons y ys =>
        have hxy : x = y := by
          have h9 := hx
          simp at h9
          exact h9.symm
        have hrel := List.chain'_cons.mp hchain
        have := hrel.1
        unfold incQe incQs at this
        rw [hxy]
        exact (int32_le_iff he31 (hall y (by simp)).2.2.1).mp this
    unfold incChecks
    simp [h1, h2, h3]

/-- Reverse counterpart of `incChecks_of_chain`. -/
theorem decChecks_of_chain :
    ∀ (l : List PwalnEntry) (loc : Nat),
      List.Chain' (fun a b => decQe a ≤ decQs b) l →
      (∀ e ∈ l, e.isQryReversed = true ∧
        e.qryStart < 2 ^ 31 ∧ e.qryEnd < 2 ^ 31) →
      (∀ e, l.head? = some e → e.qryEnd ≤ loc) →
      decChecks loc l = true := by
  intro l
  induction l with
  | nil => intro loc _ _ _; rfl
  | cons e es ih =>
    intro loc hchain hall hhead
    obtain ⟨hrev, hs31, he31⟩ := hall e (List.mem_cons_self e es)
    have h1 : e.qryEnd ≤ loc := hhead e rfl
    have h2 : e.qryEnd < e.qryStart := by
      simpa [PwalnEntry.isQryReversed] using hrev
    have h3 : decChecks e.qryStart es = true := by
      refine ih e.qryStart (hchain.tail) (fun x hx => hall x (List.mem_cons_of_mem e hx)) ?_
      intro x hx
      cases es with
      | nil => simp at hx
      | cons y ys =>
        have hxy : x = y := by
          have h9 := hx
          simp at h9
          exact h9.symm
        have hrel := (List.chain'_cons.mp hchain).1
        unfold decQe decQs at hrel
        have hy := hall y (by simp)
        have hyrev : y.qryEnd < y.qryStart := by
          simpa [PwalnEntry.isQryReversed] using hy.1
        have hle : y.qryStart ≤ e.qryEnd := by
          have := hrel
          rw [int32ofUInt32_of_lt he31, int32ofUInt32_of_lt hy.2.1] at this
          omega
        rw [hxy]
        omega
    unfold decChecks
    simp [h1, h2, h3]



/-! ## The upstream candidate set (claim C10 machinery) -/

theorem mem_setInsert {l : List PwalnEntry} {e y : PwalnEntry}
    (h : y ∈ setInsertByRefEndDesc l e) : y ∈ l ∨ y = e := by
  induction l with
  | nil =>
    simp only [setInsertByRefEndDesc, List.mem_singleton] at h
    exact Or.inr h
  | cons x xs ih =>
    unfold setInsertByRefEndDesc at h
    by_cases h1 : x.refEnd < e.refEnd
    · rw [if_pos h1] at h
      rcases List.mem_cons.mp h with h2 | h2
      · exact Or.inr h2
      · exact Or.inl h2
    · rw [if_neg h1] at h
      by_cases h2 : e.refEnd < x.refEnd
      · rw [if_pos h2] at h
        rcases List.mem_cons.mp h with h3 | h3
        · refine Or.inl ?_
          rw [h3]
          exact List.mem_cons_self x xs
        · rcases ih h3 with h4 | h4
          · exact Or.inl (List.mem_cons_of_mem x h4)
          · exact Or.inr h4
      · rw [if_neg h2] at h
        exact Or.inl h

theorem setInsert_mem_of_mem {l : List PwalnEntry} {e y : PwalnEntry}
    (h : y ∈ l) : y ∈ setInsertByRefEndDesc l e := by
  induction l with
  | nil => simp at h
  | cons x xs ih =>
    unfold setInsertByRefEndDesc
    by_cases h1 : x.refEnd < e.refEnd
    · rw [if_pos h1]
      exact List.mem_cons_of_mem e h
    · rw [if_neg h1]
      by_cases h2 : e.refEnd < x.refEnd
      · rw [if_pos h2]
        rcases List.mem_cons.mp h with h3 | h3
        · rw [h3]; exact List.mem_cons_self x _
        · exact List.mem_cons_of_mem x (ih h3)
      · rw [if_neg h2]
        exact h

theorem setInsert_self_of_absent {l : List PwalnEntry} {e : PwalnEntry}
    (h : ∀ y ∈ l, y.refEnd ≠ e.refEnd) : e ∈ setInsertByRefEndDesc l e := by
  induction l with
  | nil => simp [setInsertByRefEndDesc]
  | cons x xs ih =>
    unfold setInsertByRefEndDesc
    by_cases h1 : x.refEnd < e.refEnd
    · rw [if_pos h1]
      exact List.mem_cons_self e _
    · rw [if_neg h1]
      have h2 : e.refEnd < x.refEnd := by
        have := h x (List.mem_cons_self x xs)
        omega
      rw [if_pos h2]
      exact List.mem_cons_of_mem x (ih (fun y hy => h y (List.mem_cons_of_mem x hy)))

theorem setInsert_no_op {l : List PwalnEntry} {e y : PwalnEntry}
    (hp : List.Pairwise gtRefEnd l) (hy : y ∈ l) (hr : y.refEnd = e.refEnd) :
    setInsertByRefEndDesc l e = l := by
  induction l with
  | nil => simp at hy
  | cons x xs ih =>
    unfold setInsertByRefEndDesc
    rcases List.mem_cons.mp hy with h3 | h3
    · subst h3
      rw [if_neg (by omega), if_neg (by omega)]
    · have hx : x.refEnd > y.refEnd := List.rel_of_pairwise_cons hp h3
      rw [if_neg (by omega), if_pos (by omega)]
      rw [ih (List.Pairwise.of_cons hp) h3]

theorem setInsert_pairwise {l : List PwalnEntry} {e : PwalnEntry}
    (hp : List.Pairwise gtRefEnd l) :
    List.Pairwise gtRefEnd (setInsertByRefEndDesc l e) := by
  induction l with
  | nil => simp [setInsertByRefEndDesc, List.pairwise_singleton]
  | cons x xs ih =>
    unfold setInsertByRefEndDesc
    by_cases h1 : x.refEnd < e.refEnd
    · rw [if_pos h1]
      refine List.pairwise_cons.mpr ⟨?_, hp⟩
      intro y hy
      rcases List.mem_cons.mp hy with h2 | h2
      · rw [h2]; exact h1
      · have : gtRefEnd x y := List.rel_of_pairwise_cons hp h2
        unfold gtRefEnd at this ⊢
        omega
    · rw [if_neg h1]
      by_cases h2 : e.refEnd < x.refEnd
      · rw [if_pos h2]
        refine List.pairwise_cons.mpr ⟨?_, ih (List.Pairwise.of_cons hp)⟩
        intro y hy
        rcases mem_setInsert hy with h3 | h3
        · exact List.rel_of_pairwise_cons hp h3
        · rw [h3]; exact h2
      · rw [if_neg h2]
        exact hp

theorem setInsert_shape (l : List PwalnEntry) (e : PwalnEntry) :
    setInsertByRefEndDesc l e = l ∨
    ∃ pre suf, l = pre ++ suf ∧ setInsertByRefEndDesc l e = pre ++ e :: suf := by
  induction l with
  | nil =>
    refine Or.inr ⟨[], [], rfl, ?_⟩
    simp [setInsertByRefEndDesc]
  | cons x xs ih =>
    unfold setInsertByRefEndDesc
    by_cases h1 : x.refEnd < e.refEnd
    · rw [if_pos h1]
      exact Or.inr ⟨[], x :: xs, rfl, rfl⟩
    · rw [if_neg h1]
      by_cases h2 : e.refEnd < x.refEnd
      · rw [if_pos h2]
        rcases ih with h3 | ⟨pre, suf, h4, h5⟩
        · rw [h3]; exact Or.inl rfl
        · refine Or.inr ⟨x :: pre, suf, by rw [h4]; rfl, ?_⟩
          rw [h5]; rfl
      · rw [if_neg h2]
        exact Or.inl rfl

theorem setInsert_filter_len {l : List PwalnEntry} {e : PwalnEntry}
    (p : PwalnEntry → Bool) :
    (l.filter p).length ≤ ((setInsertByRefEndDesc l e).filter p).length := by
  rcases setInsert_shape l e with h | ⟨pre, suf, h1, h2⟩
  · rw [h]
  · rw [h2, h1]
    simp only [List.filter_append, List.length_append, List.filter_cons]
    by_cases hp : p e
    · simp only [hp, if_pos]
      simp
    · simp only [hp]
      simp

theorem take_all_gt :
    ∀ (l : List PwalnEntry) (k : Nat), List.Pairwise gtRefEnd l →
      ∀ r : Nat, k ≤ (l.filter (fun y => decide (r < y.refEnd))).length →
      ∀ y ∈ l.take k, r < y.refEnd := by
  intro l
  induction l with
  | nil => intro k _ r _ y hy; simp at hy
  | cons x xs ih =>
    intro k hp r hk y hy
    cases k with
    | zero => simp at hy
    | succ k1 =>
      by_cases hx : r < x.refEnd
      · rw [List.take_succ_cons] at hy
        rcases List.mem_cons.mp hy with h1 | h1
        · rw [h1]; exact hx
        · refine ih k1 (List.Pairwise.of_cons hp) r ?_ y h1
          rw [List.filter_cons_of_pos (by simpa using hx)] at hk
          simpa using hk
      · exfalso
        have hnil : xs.filter (fun y => decide (r < y.refEnd)) = [] := by
          rw [List.filter_eq_nil_iff]
          intro a ha
          have := List.rel_of_pairwise_cons hp ha
          unfold gtRefEnd at this
          simp only [decide_eq_true_eq]
          omega
        rw [List.filter_cons_of_neg (by simpa using hx), hnil] at hk
        simp at hk

theorem firstUpstream_append {p more : List PwalnEntry} {refLoc r : Nat} {x : PwalnEntry}
    (h : firstUpstream p refLoc r = some x) :
    firstUpstream (p ++ more) refLoc r = some x := by
  unfold firstUpstream at h ⊢
  rw [List.filter_append]
  cases hf : p.filter (fun z => decide (z.refEnd ≤ refLoc) && decide (z.refEnd = r)) with
  | nil => rw [hf] at h; simp at h
  | cons a t =>
    rw [hf] at h
    simpa using h

theorem upsOK_append {p more : List PwalnEntry} {refLoc : Nat} {u : List PwalnEntry}
    (h : UpsOK p refLoc u) : UpsOK (p ++ more) refLoc u := by
  refine ⟨h.1, ?_⟩
  intro x hx
  obtain ⟨h1, h2⟩ := h.2 x hx
  refine ⟨h1, ?_⟩
  rcases h2 with h3 | h3
  · exact Or.inl (firstUpstream_append h3)
  · exact Or.inr h3

theorem setInsert_inv {p : List PwalnEntry} {refLoc : Nat} {u : List PwalnEntry}
    {e : PwalnEntry} (hok : UpsOK p refLoc u) (hL : UpsL p refLoc u)
    (he : e.refEnd ≤ refLoc) :
    UpsOK (p ++ [e]) refLoc (setInsertByRefEndDesc u e) ∧
    UpsL (p ++ [e]) refLoc (setInsertByRefEndDesc u e) := by
  constructor
  · refine ⟨setInsert_pairwise hok.1, ?_⟩
    intro x hx
    by_cases hxu : x ∈ u
    · obtain ⟨h1, h2⟩ := hok.2 x hxu
      refine ⟨h1, ?_⟩
      rcases h2 with h3 | h3
      · exact Or.inl (firstUpstream_append h3)
      · exact Or.inr (le_trans h3 (setInsert_filter_len _))
    · have hxe : x = e := by
        rcases mem_setInsert hx with h4 | h4
        · exact absurd h4 hxu
        · exact h4
      subst hxe
      refine ⟨he, ?_⟩
      have habsent : ∀ y ∈ u, y.refEnd ≠ x.refEnd := by
        intro y hy hyr
        have := setInsert_no_op hok.1 hy hyr
        rw [this] at hx
        exact hxu hx
      by_cases hz : ∃ z ∈ p, z.refEnd ≤ refLoc ∧ z.refEnd = x.refEnd
      · rcases hL x.refEnd hz with h5 | h5
        · obtain ⟨y, hy1, hy2⟩ := h5
          exact absurd hy2 (habsent y hy1)
        · exact Or.inr (le_trans h5 (setInsert_filter_len _))
      · refine Or.inl ?_
        unfold firstUpstream
        rw [List.filter_append]
        have hfp : p.filter (fun z => decide (z.refEnd ≤ refLoc) && decide (z.refEnd = x.refEnd)) = [] := by
          rw [List.filter_eq_nil_iff]
          intro a ha hpred
          simp only [Bool.and_eq_true, decide_eq_true_eq] at hpred
          exact hz ⟨a, ha, hpred.1, hpred.2⟩
        rw [hfp]
        have hfe : [x].filter (fun z => decide (z.refEnd ≤ refLoc) && decide (z.refEnd = x.refEnd)) = [x] := by
          simp [he]
        rw [hfe]
        rfl
  · intro r hr
    obtain ⟨z, hz1, hz2, hz3⟩ := hr
    rcases List.mem_append.mp hz1 with hzp | hze
    · rcases hL r ⟨z, hzp, hz2, hz3⟩ with h5 | h5
      · obtain ⟨y, hy1, hy2⟩ := h5
        exact Or.inl ⟨y, setInsert_mem_of_mem hy1, hy2⟩
      · exact Or.inr (le_trans h5 (setInsert_filter_len _))
    · have hzee : z = e := by simpa using hze
      subst hzee
      by_cases hpresent : ∃ y ∈ u, y.refEnd = z.refEnd
      · obtain ⟨y, hy1, hy2⟩ := hpresent
        exact Or.inl ⟨y, setInsert_mem_of_mem hy1, by omega⟩
      · have habsent : ∀ y ∈ u, y.refEnd ≠ z.refEnd := by
          intro y hy hyr
          exact hpresent ⟨y, hy, hyr⟩
        refine Or.inl ⟨z, setInsert_self_of_absent habsent, hz3⟩

theorem take_topn_inv {p : List PwalnEntry} {refLoc : Nat} {u : List PwalnEntry}
    (hok : UpsOK p refLoc u) (hL : UpsL p refLoc u) (hlen : topn ≤ u.length) :
    UpsOK p refLoc (u.take topn) ∧ UpsL p refLoc (u.take topn) := by
  have htake : ∀ x ∈ u.take topn, x ∈ u := fun x hx => List.mem_of_mem_take hx
  have hlen2 : (u.take topn).length = topn := by
    rw [List.length_take]
    omega
  have hfirst : ∀ x ∈ u.take topn, firstUpstream p refLoc x.refEnd = some x := by
    intro x hx
    rcases (hok.2 x (htake x hx)).2 with h1 | h1
    · exact h1
    · exfalso
      have := take_all_gt u topn hok.1 x.refEnd h1 x hx
      omega
  constructor
  · refine ⟨List.Pairwise.sublist (List.take_sublist _ _) hok.1, ?_⟩
    intro x hx
    exact ⟨(hok.2 x (htake x hx)).1, Or.inl (hfirst x hx)⟩
  · intro r hr
    rcases hL r hr with h5 | h5
    · obtain ⟨x, hx1, hx2⟩ := h5
      by_cases hxt : x ∈ u.take topn
      · exact Or.inl ⟨x, hxt, hx2⟩
      · refine Or.inr ?_
        have hsplit : u = u.take topn ++ u.drop topn := (List.take_append_drop _ _).symm
        have hxdrop : x ∈ u.drop topn := by
          have := hx1
          rw [hsplit] at this
          rcases List.mem_append.mp this with h6 | h6
          · exact absurd h6 hxt
          · exact h6
        have hcross : ∀ y ∈ u.take topn, gtRefEnd y x := by
          have hpw := hok.1
          rw [hsplit] at hpw
          have := (List.pairwise_append.mp hpw).2.2
          intro y hy
          exact this y hy x hxdrop
        have hall : (u.take topn).filter (fun y => decide (r < y.refEnd)) = u.take topn := by
          rw [List.filter_eq_self]
          intro a ha
          have := hcross a ha
          unfold gtRefEnd at this
          simp only [decide_eq_true_eq]
          omega
        rw [hall, hlen2]
    · refine Or.inr ?_
      have hall : (u.take topn).filter (fun y => decide (r < y.refEnd)) = u.take topn := by
        rw [List.filter_eq_self]
        intro a ha
        have := take_all_gt u topn hok.1 r h5 a ha
        simpa using this
      rw [hall, hlen2]

theorem scanStep_up_inv {p : List PwalnEntry} {refLoc : Nat} {u : List PwalnEntry}
    {e : PwalnEntry} (hok : UpsOK p refLoc u) (hL : UpsL p refLoc u)
    (he : e.refEnd ≤ refLoc) :
    UpsOK (p ++ [e]) refLoc
      (if 10 * topn < (setInsertByRefEndDesc u e).length
        then (setInsertByRefEndDesc u e).take topn else setInsertByRefEndDesc u e) ∧
    UpsL (p ++ [e]) refLoc
      (if 10 * topn < (setInsertByRefEndDesc u e).length
        then (setInsertByRefEndDesc u e).take topn else setInsertByRefEndDesc u e) := by
  obtain ⟨hok1, hL1⟩ := setInsert_inv hok hL he
  by_cases hlen : 10 * topn < (setInsertByRefEndDesc u e).length
  · rw [if_pos hlen]
    have := take_topn_inv hok1 hL1 (by unfold topn at hlen ⊢; omega)
    exact this
  · rw [if_neg hlen]
    exact ⟨hok1, hL1⟩

theorem scan_fold_ok (refLoc : Nat) :
    ∀ (rest p : List PwalnEntry) (st : ScanState),
      (st.stopped = false → UpsOK p refLoc st.ups ∧ UpsL p refLoc st.ups) →
      (st.stopped = true → UpsOK p refLoc st.ups) →
      UpsOK (p ++ rest) refLoc ((rest.foldl (scanStep refLoc) st).ups) := by
  intro rest
  induction rest with
  | nil =>
    intro p st hfalse htrue
    simp only [List.foldl_nil, List.append_nil]
    cases hst : st.stopped with
    | false => exact (hfalse hst).1
    | true => exact htrue hst
  | cons e rest ih =>
    intro p st hfalse htrue
    have hassoc : p ++ e :: rest = (p ++ [e]) ++ rest := by simp
    rw [hassoc, List.foldl_cons]
    cases hst : st.stopped with
    | true =>
      have hstep : scanStep refLoc st e = st := by
        unfold scanStep
        rw [if_pos hst]
      rw [hstep]
      refine ih (p ++ [e]) st ?_ ?_
      · intro h
        rw [hst] at h
        exact absurd h (by simp)
      · intro _
        exact upsOK_append (htrue hst)
    | false =>
      obtain ⟨hok, hL⟩ := hfalse hst
      have hnstop : ¬ st.stopped = true := by
        rw [hst]
        exact Bool.false_ne_true
      by_cases hup : e.refEnd ≤ refLoc
      · have hstep : scanStep refLoc st e =
            { st with ups :=
                if 10 * topn < (setInsertByRefEndDesc st.ups e).length
                then (setInsertByRefEndDesc st.ups e).take topn
                else setInsertByRefEndDesc st.ups e } := by
          unfold scanStep
          rw [if_neg hnstop, if_pos hup]
        rw [hstep]
        refine ih (p ++ [e]) _ ?_ ?_
        · intro _
          exact scanStep_up_inv hok hL hup
        · intro h
          simp only at h
          rw [hst] at h
          exact absurd h (by simp)
      · by_cases hdown : refLoc < e.refStart
        · have hstep : scanStep refLoc st e =
              { st with downs := st.downs ++ [e],
                        stopped := decide ((st.downs ++ [e]).length = topn) } := by
            unfold scanStep
            rw [if_neg hnstop, if_neg hup, if_pos hdown]
          rw [hstep]
          have hLe : UpsL (p ++ [e]) refLoc st.ups := by
            intro r hr
            obtain ⟨z, hz1, hz2, hz3⟩ := hr
            rcases List.mem_append.mp hz1 with hzp | hze
            · exact hL r ⟨z, hzp, hz2, hz3⟩
            · have hzee : z = e := by simpa using hze
              rw [hzee] at hz2
              exact absurd hz2 hup
          refine ih (p ++ [e]) _ ?_ ?_
          · intro _
            exact ⟨upsOK_append hok, hLe⟩
          · intro _
            exact upsOK_append hok
        · have hstep : scanStep refLoc st e = { st with ovAln := st.ovAln ++ [e] } := by
            unfold scanStep
            rw [if_neg hnstop, if_neg hup, if_neg hdown]
          rw [hstep]
          have hLe : UpsL (p ++ [e]) refLoc st.ups := by
            intro r hr
            obtain ⟨z, hz1, hz2, hz3⟩ := hr
            rcases List.mem_append.mp hz1 with hzp | hze
            · exact hL r ⟨z, hzp, hz2, hz3⟩
            · have hzee : z = e := by simpa using hze
              rw [hzee] at hz2
              exact absurd hz2 hup
          refine ih (p ++ [e]) _ ?_ ?_
          · intro _
            exact ⟨upsOK_append hok, hLe⟩
          · intro _
            exact upsOK_append hok

theorem scanAnchors_upsOK (entries : List PwalnEntry) (refLoc : Nat) :
    UpsOK entries refLoc ((scanAnchors entries refLoc).ups) := by
  have h := scan_fold_ok refLoc entries [] ⟨[], [], [], false⟩
    (fun _ => ⟨⟨List.Pairwise.nil, fun x hx => absurd hx (List.not_mem_nil x)⟩,
      fun r hr => absurd hr.choose_spec.1 (List.not_mem_nil _)⟩)
    (fun h => by simp at h)
  simpa [scanAnchors] using h

/-! ## Claim C10 -/

/-- C10: the upstream candidate container of the `getAnchors` neighbor
scan is keyed solely by `ref_end`: the retained candidates have pairwise
distinct `ref_end`s (so of two or more upstream entries with equal
`ref_end`, at most one is retained before the major-chromosome and
collinearity filters run), and every retained candidate is exactly the
first upstream entry of the slice bearing its `ref_end` in scan order —
the later ones are silently dropped. -/
theorem claim10_equal_refEnd_upstream_dropped (entries : List PwalnEntry) (refLoc : Nat) :
    (upstreamCandidates entries refLoc).Pairwise (fun a b => a.refEnd ≠ b.refEnd) ∧
    ∀ x ∈ upstreamCandidates entries refLoc,
      firstUpstream entries refLoc x.refEnd = some x := by
  have hscan := scanAnchors_upsOK entries refLoc
  unfold upstreamCandidates
  by_cases hlen : topn < (scanAnchors entries refLoc).ups.length
  · rw [if_pos hlen]
    constructor
    · refine List.Pairwise.imp ?_
        (List.Pairwise.sublist (List.take_sublist _ _) hscan.1)
      intro a b hab
      unfold gtRefEnd at hab
      omega
    · intro x hx
      rcases (hscan.2 x (List.mem_of_mem_take hx)).2 with h1 | h1
      · exact h1
      · exfalso
        have := take_all_gt _ topn hscan.1 x.refEnd h1 x hx
        omega
  · rw [if_neg hlen]
    constructor
    · refine List.Pairwise.imp ?_ hscan.1
      intro a b hab
      unfold gtRefEnd at hab
      omega
    · intro x hx
      rcases (hscan.2 x hx).2 with h1 | h1
      · exact h1
      · exfalso
        have hle := List.length_filter_le
          (fun y => decide (x.refEnd < y.refEnd)) (scanAnchors entries refLoc).ups
        have heq : ((scanAnchors entries refLoc).ups.filter
            (fun y => decide (x.refEnd < y.refEnd))).length =
            (scanAnchors entries refLoc).ups.length := by
          omega
        have hall := List.filter_length_eq_length.mp heq x hx
        simp at hall

/-! ## Claim C4 -/

theorem roundNE_spec (y : ℚ) : |(roundNE y : ℚ) - y| ≤ 1/2 := by
  unfold roundNE
  simp only []
  have h1 : (⌊y⌋ : ℚ) ≤ y := Int.floor_le y
  have h2 : y < ⌊y⌋ + 1 := Int.lt_floor_add_one y
  by_cases hf1 : y - ⌊y⌋ < 1/2
  · rw [if_pos hf1, abs_le]
    constructor <;> linarith
  · rw [if_neg hf1]
    by_cases hf2 : (1 : ℚ)/2 < y - ⌊y⌋
    · rw [if_pos hf2, abs_le]
      push_cast
      constructor <;> linarith
    · rw [if_neg hf2]
      by_cases hpar : ⌊y⌋ % 2 = 0
      · rw [if_pos hpar, abs_le]
        constructor <;> linarith
      · rw [if_neg hpar, abs_le]
        push_cast
        constructor <;> linarith

theorem zpow_nat_sub_q (m n : ℕ) :
    (2:ℚ) ^ ((m : ℤ) - (n : ℤ)) = ((2 ^ m : ℕ) : ℚ) / ((2 ^ n : ℕ) : ℚ) := by
  rw [zpow_sub₀ (two_ne_zero), zpow_natCast, zpow_natCast]
  push_cast
  ring

theorem log2F_spec : ∀ (fuel n : ℕ), 0 < n → n < 2 ^ fuel →
    2 ^ log2F fuel n ≤ n ∧ n < 2 ^ (log2F fuel n + 1) := by
  intro fuel
  induction fuel with
  | zero =>
    intro n h1 h2
    simp at h2
    omega
  | succ f ih =>
    intro n h1 h2
    unfold log2F
    by_cases hle : n ≤ 1
    · rw [if_pos hle]
      constructor
      · simpa using h1
      · have h3 : 2 ^ (0 + 1) = 2 := by norm_num
        omega
    · rw [if_neg hle]
      push_neg at hle
      have hd1 : 0 < n / 2 := by omega
      have hstep : 2 ^ (f + 1) = 2 ^ f * 2 := pow_succ 2 f
      have hd2 : n / 2 < 2 ^ f := by omega
      obtain ⟨ih1, ih2⟩ := ih (n / 2) hd1 hd2
      have hs1 : 2 ^ (log2F f (n / 2) + 1) = 2 ^ log2F f (n / 2) * 2 :=
        pow_succ 2 (log2F f (n / 2))
      have hs2 : 2 ^ (log2F f (n / 2) + 1 + 1) = 2 ^ (log2F f (n / 2) + 1) * 2 :=
        pow_succ 2 (log2F f (n / 2) + 1)
      omega

theorem flExp_spec {x : ℚ} (hx : 0 < x) :
    (2:ℚ) ^ flExp x ≤ x ∧ x < (2:ℚ) ^ (flExp x + 1) := by
  have hnum : 0 < x.num := Rat.num_pos.mpr hx
  have hden : 0 < x.den := x.pos
  have ha1 : 0 < x.num.toNat := by omega
  obtain ⟨hA1, hA2⟩ := log2F_spec x.num.toNat x.num.toNat ha1 (Nat.lt_two_pow _)
  obtain ⟨hB1, hB2⟩ := log2F_spec x.den x.den hden (Nat.lt_two_pow _)
  have hxab : x = ((x.num.toNat : ℕ) : ℚ) / ((x.den : ℕ) : ℚ) := by
    conv_lhs => rw [← Rat.num_div_den x]
    congr 1
    · exact_mod_cast (Int.toNat_of_nonneg (le_of_lt hnum)).symm
  set α := log2F x.num.toNat x.num.toNat with hα
  set β := log2F x.den x.den with hβ
  have hdenq : (0:ℚ) < (x.den : ℚ) := by exact_mod_cast hden
  have hp2 : ∀ k : ℕ, (0:ℚ) < ((2 ^ k : ℕ) : ℚ) := by
    intro k
    exact_mod_cast Nat.pos_pow_of_pos k (by norm_num)
  have key1 : x < (2:ℚ) ^ ((α : ℤ) - (β : ℤ) + 1) := by
    have h1 : x < ((2 ^ (α + 1) : ℕ) : ℚ) / ((2 ^ β : ℕ) : ℚ) := by
      rw [hxab]
      apply div_lt_div₀
      · exact_mod_cast hA2
      · exact_mod_cast hB1
      · positivity
      · exact hp2 β
    have h2 : ((α : ℤ) - (β : ℤ) + 1) = ((α + 1 : ℕ) : ℤ) - (β : ℤ) := by push_cast; ring
    rw [h2, zpow_nat_sub_q]
    exact h1
  have key2 : (2:ℚ) ^ ((α : ℤ) - (β : ℤ) - 1) < x := by
    have h1 : ((2 ^ α : ℕ) : ℚ) / ((2 ^ (β + 1) : ℕ) : ℚ) < x := by
      rw [hxab]
      apply div_lt_div₀'
      · exact_mod_cast hA1
      · exact_mod_cast hB2
      · exact_mod_cast ha1
      · exact hdenq
    have h2 : ((α : ℤ) - (β : ℤ) - 1) = ((α : ℕ) : ℤ) - ((β + 1 : ℕ) : ℤ) := by push_cast; ring
    rw [h2, zpow_nat_sub_q]
    exact h1
  have hcond : (x.num.toNat * 2 ^ (-((α : ℤ) - (β : ℤ))).toNat <
      x.den * 2 ^ ((α : ℤ) - (β : ℤ)).toNat) ↔ x < (2:ℚ) ^ ((α : ℤ) - (β : ℤ)) := by
    have hpq : (2:ℚ) ^ ((α : ℤ) - (β : ℤ)) =
        ((2 ^ ((α : ℤ) - (β : ℤ)).toNat : ℕ) : ℚ) /
          ((2 ^ (-((α : ℤ) - (β : ℤ))).toNat : ℕ) : ℚ) := by
      rw [← zpow_nat_sub_q]
      congr 1
      omega
    rw [hpq]
    conv_rhs => rw [hxab]
    rw [div_lt_div_iff hdenq (hp2 _)]
    rw [mul_comm (((2 ^ ((α : ℤ) - (β : ℤ)).toNat : ℕ) : ℚ)) ((x.den : ℚ))]
    exact_mod_cast Iff.rfl.symm
  unfold flExp
  simp only []
  rw [← hα, ← hβ]
  by_cases hc : x.num.toNat * 2 ^ (-((α : ℤ) - (β : ℤ))).toNat <
      x.den * 2 ^ ((α : ℤ) - (β : ℤ)).toNat
  · rw [if_pos hc]
    have hcx : x < (2:ℚ) ^ ((α : ℤ) - (β : ℤ)) := hcond.mp hc
    constructor
    · exact le_of_lt key2
    · have h6 : (α : ℤ) - (β : ℤ) - 1 + 1 = (α : ℤ) - (β : ℤ) := by ring
      rw [h6]
      exact hcx
  · rw [if_neg hc]
    have hcx : ¬ x < (2:ℚ) ^ ((α : ℤ) - (β : ℤ)) := fun h => hc (hcond.mpr h)
    exact ⟨not_lt.mp hcx, key1⟩

theorem fl_nonneg (x : ℚ) : 0 ≤ fl x := by
  unfold fl
  by_cases hx : x ≤ 0
  · rw [if_pos hx]
  · rw [if_neg hx]
    push_neg at hx
    simp only []
    apply div_nonneg
    · have h1 : (0 : ℤ) ≤ roundNE (x * ((2 ^ (52 - flExp x).toNat : ℕ) : ℚ)) := by
        unfold roundNE
        simp only []
        have h2 : (0:ℤ) ≤ ⌊x * ((2 ^ (52 - flExp x).toNat : ℕ) : ℚ)⌋ := by
          apply Int.floor_nonneg.mpr
          positivity
        by_cases hf1 : x * ((2 ^ (52 - flExp x).toNat : ℕ) : ℚ) -
            ⌊x * ((2 ^ (52 - flExp x).toNat : ℕ) : ℚ)⌋ < 1/2
        · rw [if_pos hf1]; exact h2
        · rw [if_neg hf1]
          by_cases hf2 : (1:ℚ)/2 < x * ((2 ^ (52 - flExp x).toNat : ℕ) : ℚ) -
              ⌊x * ((2 ^ (52 - flExp x).toNat : ℕ) : ℚ)⌋
          · rw [if_pos hf2]; omega
          · rw [if_neg hf2]
            by_cases hpar : ⌊x * ((2 ^ (52 - flExp x).toNat : ℕ) : ℚ)⌋ % 2 = 0
            · rw [if_pos hpar]; exact h2
            · rw [if_neg hpar]; omega
      exact_mod_cast h1
    · positivity

theorem fl_err {x : ℚ} (h0 : 0 ≤ x) (h52 : x < 2 ^ 52) : |fl x - x| ≤ x / 2 ^ 53 := by
  unfold fl
  by_cases hx : x ≤ 0
  · rw [if_pos hx]
    have hx0 : x = 0 := le_antisymm hx h0
    rw [hx0]
    norm_num
  · rw [if_neg hx]
    push_neg at hx
    simp only []
    obtain ⟨he1, he2⟩ := flExp_spec hx
    set e := flExp x with he
    have hele : e ≤ 51 := by
      by_contra hc
      push_neg at hc
      have h1 : (2:ℚ) ^ (52 : ℤ) ≤ (2:ℚ) ^ e := by
        apply zpow_le_zpow_right₀ one_le_two
        omega
      have h2 : (2:ℚ) ^ (52 : ℤ) = (2:ℚ) ^ (52 : ℕ) := by
        rw [← zpow_natCast]
        norm_num
      rw [h2] at h1
      linarith [le_trans h1 he1]
    set s := (52 - e).toNat with hs
    have hsz : (s : ℤ) = 52 - e := by omega
    have hcast : ((2 ^ s : ℕ) : ℚ) = (2:ℚ) ^ s := by push_cast; ring
    rw [hcast]
    have hsp : (0:ℚ) < 2 ^ s := by positivity
    have hrnd := roundNE_spec (x * 2 ^ s)
    have hkey : (2:ℚ) ^ 52 ≤ x * 2 ^ s := by
      have h1 : (2:ℚ) ^ e * 2 ^ s ≤ x * 2 ^ s := by
        apply mul_le_mul_of_nonneg_right he1 (le_of_lt hsp)
      have h2 : (2:ℚ) ^ e * 2 ^ s = 2 ^ 52 := by
        rw [show ((2:ℚ) ^ s) = (2:ℚ) ^ ((s:ℤ)) from (zpow_natCast 2 s).symm,
          ← zpow_add₀ (two_ne_zero), hsz]
        rw [show e + (52 - e) = (52:ℤ) by ring]
        rw [← zpow_natCast]
        norm_num
      rw [← h2]
      exact h1
    have h1 : (roundNE (x * 2 ^ s) : ℚ) / 2 ^ s - x =
        ((roundNE (x * 2 ^ s) : ℚ) - x * 2 ^ s) / 2 ^ s := by
      field_simp
      ring
    rw [h1, abs_div, abs_of_pos hsp]
    rw [div_le_div_iff₀ hsp (by positivity : (0:ℚ) < 2 ^ 53)]
    calc |(roundNE (x * 2 ^ s) : ℚ) - x * 2 ^ s| * 2 ^ 53
        ≤ (1/2) * 2 ^ 53 := by
          apply mul_le_mul_of_nonneg_right hrnd (by positivity)
      _ = 2 ^ 52 := by norm_num
      _ ≤ x * 2 ^ s := hkey

theorem flInterp_close (N D2 D ql : ℕ) (hD2 : 0 < D2) (hN : N < D2)
    (hD : D ≤ 2 ^ 32) (hql : ql ≤ 2 ^ 32) :
    |fl ((ql : ℚ) + fl (fl ((N : ℚ) / (D2 : ℚ)) * (D : ℚ))) -
      ((ql : ℚ) + (N : ℚ) * (D : ℚ) / (D2 : ℚ))| ≤ 1/2 := by
  have hD2q : (0:ℚ) < (D2 : ℚ) := by exact_mod_cast hD2
  have hDq : (0:ℚ) ≤ (D : ℚ) := by positivity
  have hDb : (D : ℚ) ≤ 2 ^ 32 := by exact_mod_cast hD
  have hqlb : (ql : ℚ) ≤ 2 ^ 32 := by exact_mod_cast hql
  have hql0 : (0:ℚ) ≤ (ql : ℚ) := by positivity
  have hρ0 : (0:ℚ) ≤ (N : ℚ) / (D2 : ℚ) := by positivity
  have hρ1 : (N : ℚ) / (D2 : ℚ) ≤ 1 := by
    rw [div_le_one hD2q]
    exact_mod_cast le_of_lt hN
  have h1 := fl_err hρ0 (lt_of_le_of_lt hρ1 (by norm_num))
  have hq0 : 0 ≤ fl ((N : ℚ) / (D2 : ℚ)) := fl_nonneg _
  have hc53 : (0:ℚ) < 2 ^ 53 := by positivity
  have habs1 : |fl ((N : ℚ) / (D2 : ℚ)) - (N : ℚ) / (D2 : ℚ)| ≤ 1 / 2 ^ 53 := by
    refine le_trans h1 ((div_le_div_right hc53).mpr hρ1)
  have habs1e := abs_le.mp habs1
  have hq2 : fl ((N : ℚ) / (D2 : ℚ)) ≤ 2 := by
    have : (1:ℚ) / 2 ^ 53 ≤ 1 := by norm_num
    linarith [habs1e.2]
  have hqD0 : (0:ℚ) ≤ fl ((N : ℚ) / (D2 : ℚ)) * (D : ℚ) := mul_nonneg hq0 hDq
  have hqDb : fl ((N : ℚ) / (D2 : ℚ)) * (D : ℚ) ≤ 2 ^ 33 := by
    calc fl ((N : ℚ) / (D2 : ℚ)) * (D : ℚ) ≤ 2 * 2 ^ 32 :=
        mul_le_mul hq2 hDb hDq (by norm_num)
      _ = 2 ^ 33 := by norm_num
  have h2 := fl_err hqD0 (lt_of_le_of_lt hqDb (by norm_num))
  have hp0 : 0 ≤ fl (fl ((N : ℚ) / (D2 : ℚ)) * (D : ℚ)) := fl_nonneg _
  have habs2 : |fl (fl ((N : ℚ) / (D2 : ℚ)) * (D : ℚ)) - fl ((N : ℚ) / (D2 : ℚ)) * (D : ℚ)| ≤
      1 / 2 ^ 20 := by
    refine le_trans h2 ?_
    rw [div_le_div_iff₀ hc53 (by positivity : (0:ℚ) < 2 ^ 20)]
    nlinarith [hqDb]
  have habs2e := abs_le.mp habs2
  have habs3 : |fl ((N : ℚ) / (D2 : ℚ)) * (D : ℚ) - ((N : ℚ) / (D2 : ℚ)) * (D : ℚ)| ≤
      1 / 2 ^ 21 := by
    rw [← sub_mul, abs_mul, abs_of_nonneg hDq]
    calc |fl ((N : ℚ) / (D2 : ℚ)) - (N : ℚ) / (D2 : ℚ)| * (D : ℚ)
        ≤ (1 / 2 ^ 53) * 2 ^ 32 := by
          apply mul_le_mul habs1 hDb hDq (by positivity)
      _ = 1 / 2 ^ 21 := by norm_num
  have habs3e := abs_le.mp habs3
  have hy30 : (0:ℚ) ≤ (ql : ℚ) + fl (fl ((N : ℚ) / (D2 : ℚ)) * (D : ℚ)) := by positivity
  have hy3b : (ql : ℚ) + fl (fl ((N : ℚ) / (D2 : ℚ)) * (D : ℚ)) ≤ 2 ^ 34 := by
    have hp_ub : fl (fl ((N : ℚ) / (D2 : ℚ)) * (D : ℚ)) ≤ 2 ^ 33 + 1 := by
      have : (1:ℚ) / 2 ^ 20 ≤ 1 := by norm_num
      linarith [habs2e.2]
    have : (2:ℚ) ^ 32 + (2 ^ 33 + 1) ≤ 2 ^ 34 := by norm_num
    linarith
  have h4 := fl_err hy30 (lt_of_le_of_lt hy3b (by norm_num))
  have habs4 : |fl ((ql : ℚ) + fl (fl ((N : ℚ) / (D2 : ℚ)) * (D : ℚ))) -
      ((ql : ℚ) + fl (fl ((N : ℚ) / (D2 : ℚ)) * (D : ℚ)))| ≤ 1 / 2 ^ 19 := by
    refine le_trans h4 ?_
    rw [div_le_div_iff₀ hc53 (by positivity : (0:ℚ) < 2 ^ 19)]
    nlinarith [hy3b]
  have habs4e := abs_le.mp habs4
  have hsplit : fl ((ql : ℚ) + fl (fl ((N : ℚ) / (D2 : ℚ)) * (D : ℚ))) -
      ((ql : ℚ) + (N : ℚ) * (D : ℚ) / (D2 : ℚ)) =
      (fl ((ql : ℚ) + fl (fl ((N : ℚ) / (D2 : ℚ)) * (D : ℚ))) -
        ((ql : ℚ) + fl (fl ((N : ℚ) / (D2 : ℚ)) * (D : ℚ)))) +
      ((fl (fl ((N : ℚ) / (D2 : ℚ)) * (D : ℚ)) - fl ((N : ℚ) / (D2 : ℚ)) * (D : ℚ)) +
        (fl ((N : ℚ) / (D2 : ℚ)) * (D : ℚ) - ((N : ℚ) / (D2 : ℚ)) * (D : ℚ))) := by
    rw [div_mul_eq_mul_div]
    ring
  rw [hsplit, abs_le]
  constructor
  · linarith [habs4e.1, habs2e.1, habs3e.1]
  · linarith [habs4e.2, habs2e.2, habs3e.2]

theorem floor_natCast_div_eq (a b : ℕ) :
    ⌊((a : ℚ)) / ((b : ℚ))⌋ = ((a / b : ℕ) : ℤ) := by
  have h4 : (0:ℚ) ≤ ((a : ℚ)) / ((b : ℚ)) := by positivity
  have h5 : ⌊((a : ℚ)) / ((b : ℚ))⌋ = (⌊((a : ℚ)) / ((b : ℚ))⌋₊ : ℤ) := by
    rw [← Int.floor_toNat]
    exact (Int.toNat_of_nonneg (Int.floor_nonneg.mpr h4)).symm
  rw [h5, Nat.floor_div_eq_div]

theorem flInterp_within_one (N D2 D ql : ℕ) (hD2 : 0 < D2) (hN : N < D2)
    (hD : D ≤ 2 ^ 32) (hql : ql ≤ 2 ^ 32) :
    ql + N * D / D2 ≤ (⌊fl ((ql : ℚ) + fl (fl ((N : ℚ) / (D2 : ℚ)) * (D : ℚ)))⌋).toNat + 1 ∧
    (⌊fl ((ql : ℚ) + fl (fl ((N : ℚ) / (D2 : ℚ)) * (D : ℚ)))⌋).toNat ≤ ql + N * D / D2 + 1 := by
  have hclose := flInterp_close N D2 D ql hD2 hN hD hql
  have hcle := abs_le.mp hclose
  have hs0 : (0:ℚ) ≤ fl ((ql : ℚ) + fl (fl ((N : ℚ) / (D2 : ℚ)) * (D : ℚ))) := fl_nonneg _
  have hsf0 : 0 ≤ ⌊fl ((ql : ℚ) + fl (fl ((N : ℚ) / (D2 : ℚ)) * (D : ℚ)))⌋ :=
    Int.floor_nonneg.mpr hs0
  have hfv : ⌊(ql : ℚ) + (N : ℚ) * (D : ℚ) / (D2 : ℚ)⌋ = ((ql + N * D / D2 : ℕ) : ℤ) := by
    have h1 : ((ql : ℚ)) = (((ql : ℤ)) : ℚ) := by push_cast; ring
    rw [h1, add_comm, Int.floor_add_int]
    have h2 : (N : ℚ) * (D : ℚ) / (D2 : ℚ) = (((N * D : ℕ) : ℚ)) / (((D2 : ℕ)) : ℚ) := by
      push_cast; ring
    rw [h2, floor_natCast_div_eq]
    push_cast
    ring
  have hup : ⌊fl ((ql : ℚ) + fl (fl ((N : ℚ) / (D2 : ℚ)) * (D : ℚ)))⌋ ≤
      ⌊(ql : ℚ) + (N : ℚ) * (D : ℚ) / (D2 : ℚ)⌋ + 1 := by
    have h1 : fl ((ql : ℚ) + fl (fl ((N : ℚ) / (D2 : ℚ)) * (D : ℚ))) ≤
        ((ql : ℚ) + (N : ℚ) * (D : ℚ) / (D2 : ℚ)) + 1 := by linarith [hcle.2]
    calc ⌊fl ((ql : ℚ) + fl (fl ((N : ℚ) / (D2 : ℚ)) * (D : ℚ)))⌋
        ≤ ⌊((ql : ℚ) + (N : ℚ) * (D : ℚ) / (D2 : ℚ)) + 1⌋ := Int.floor_le_floor h1
      _ = ⌊(ql : ℚ) + (N : ℚ) * (D : ℚ) / (D2 : ℚ)⌋ + 1 := by
          rw [show ((1:ℚ)) = ((1:ℤ):ℚ) by norm_num, Int.floor_add_int]
  have hdown : ⌊(ql : ℚ) + (N : ℚ) * (D : ℚ) / (D2 : ℚ)⌋ ≤
      ⌊fl ((ql : ℚ) + fl (fl ((N : ℚ) / (D2 : ℚ)) * (D : ℚ)))⌋ + 1 := by
    have h1 : ((ql : ℚ) + (N : ℚ) * (D : ℚ) / (D2 : ℚ)) ≤
        fl ((ql : ℚ) + fl (fl ((N : ℚ) / (D2 : ℚ)) * (D : ℚ))) + 1 := by linarith [hcle.1]
    calc ⌊(ql : ℚ) + (N : ℚ) * (D : ℚ) / (D2 : ℚ)⌋
        ≤ ⌊fl ((ql : ℚ) + fl (fl ((N : ℚ) / (D2 : ℚ)) * (D : ℚ))) + 1⌋ := Int.floor_le_floor h1
      _ = ⌊fl ((ql : ℚ) + fl (fl ((N : ℚ) / (D2 : ℚ)) * (D : ℚ)))⌋ + 1 := by
          rw [show ((1:ℚ)) = ((1:ℤ):ℚ) by norm_num, Int.floor_add_int]
  rw [hfv] at hup hdown
  omega

/-- The spec formula in integer form: the exact rational floor
`qry_left + floor(frac * (qry_right - qry_left))` equals the integer
expression `qry_left + (loc - L) * (qry_right - qry_left) / (R - L)`. -/
theorem natdiv_interp_eq (ql qr L R loc : Nat) (h1 : L ≤ loc) (h2 : loc < R)
    (h3 : ql ≤ qr) :
    ql + (loc - L) * (qr - ql) / (R - L) =
      ql + (Int.floor ((((loc : ℚ) - (L : ℚ)) / ((R : ℚ) - (L : ℚ))) *
        ((qr : ℚ) - (ql : ℚ)))).toNat := by
  have hLR : L < R := lt_of_le_of_lt h1 h2
  congr 1
  have hnum : ((loc : ℚ) - (L : ℚ)) = ((loc - L : Nat) : ℚ) := (Nat.cast_sub h1).symm
  have hden : ((R : ℚ) - (L : ℚ)) = ((R - L : Nat) : ℚ) := (Nat.cast_sub (le_of_lt hLR)).symm
  have hw : ((qr : ℚ) - (ql : ℚ)) = ((qr - ql : Nat) : ℚ) := (Nat.cast_sub h3).symm
  rw [hnum, hden, hw, div_mul_eq_mul_div, ← Nat.cast_mul, Int.floor_toNat,
    Nat.floor_div_eq_div]

/-- C4 (amended): in every single-hop projection whose anchors are
distinct flanks (Case B), the preconditions `ref_left ≤ loc < ref_right`
and `qry_up_start < qry_up_end` hold, and — provided the query bounds
fit in `uint32` range — the result coordinate equals the claim's
`qry_left + floor(frac * (qry_right - qry_left))` up to an error of at
most one in either direction: the three double roundings (division,
multiplication, addition) keep the computed value within `1/2` of the
exact interpolation, so its truncation can land on a neighbouring
integer (and does — see the refuting evaluation below). -/
theorem claim4_amended_interp_within_one
    (pwalns : PwalnStore) (genomeSizes : GenomeSizes)
    (scoreFn : Nat → Nat → Nat → Nat → ℚ → ℚ) (refSp qrySp : Nat)
    (refCoords : Coords) (sf : ℚ) (res : GenomicProjectionResult)
    (hres : projectGenomicLocation pwalns genomeSizes scoreFn refSp qrySp refCoords sf =
      .ok (some res))
    (hdist : res.anchors.upstream ≠ res.anchors.downstream)
    (hb1 : res.anchors.upstream.qryEnd ≤ 2 ^ 32)
    (hb2 : res.anchors.downstream.qryStart ≤ 2 ^ 32) :
    res.anchors.upstream.refEnd ≤ refCoords.loc ∧
    refCoords.loc < res.anchors.downstream.refStart ∧
    (if res.anchors.upstream.isQryReversed then res.anchors.downstream.qryEnd
      else res.anchors.upstream.qryStart) <
      (if res.anchors.upstream.isQryReversed then res.anchors.downstream.qryStart
        else res.anchors.upstream.qryEnd) ∧
    specCaseBQryLoc res.anchors.upstream res.anchors.downstream refCoords.loc ≤
      res.nextCoords.loc + 1 ∧
    res.nextCoords.loc ≤
      specCaseBQryLoc res.anchors.upstream res.anchors.downstream refCoords.loc + 1 := by
  unfold projectGenomicLocation at hres
  cases hl1 : List.lookup refSp pwalns with
  | none => rw [hl1] at hres; simp at hres
  | some m1 =>
  rw [hl1] at hres
  simp only [] at hres
  cases hl2 : List.lookup qrySp m1 with
  | none => rw [hl2] at hres; simp at hres
  | some pwaln =>
  rw [hl2] at hres
  simp only [] at hres
  cases hga : getAnchors pwaln refCoords with
  | error f => rw [hga] at hres; simp at hres
  | ok oanch =>
  rw [hga] at hres
  cases oanch with
  | none => simp at hres
  | some anchors =>
  simp only [] at hres
  by_cases hq1 : (if anchors.upstream.isQryReversed then anchors.downstream.qryEnd
      else anchors.upstream.qryStart) <
      (if anchors.upstream.isQryReversed then anchors.downstream.qryStart
        else anchors.upstream.qryEnd)
  case neg => rw [if_neg hq1] at hres; simp at hres
  case pos =>
  rw [if_pos hq1] at hres
  by_cases heq : anchors.upstream = anchors.downstream
  case pos =>
    rw [if_pos heq] at hres
    exfalso
    by_cases hg : anchors.upstream.refStart ≤ refCoords.loc ∧
        refCoords.loc < anchors.upstream.refEnd
    · rw [if_pos hg] at hres
      have hanch : res.anchors = anchors := by
        simp only [Except.ok.injEq, Option.some.injEq] at hres
        rw [← hres]
      exact hdist (by rw [hanch]; exact heq)
    · rw [if_neg hg] at hres
      simp at hres
  case neg =>
  rw [if_neg heq] at hres
  by_cases hq2 : (if anchors.upstream.isQryReversed then anchors.downstream.qryStart
      else anchors.upstream.qryEnd) ≤
      (if anchors.upstream.isQryReversed then anchors.upstream.qryEnd
        else anchors.downstream.qryStart) ∧
      (if anchors.upstream.isQryReversed then anchors.upstream.qryEnd
        else anchors.downstream.qryStart) <
      (if anchors.upstream.isQryReversed then anchors.upstream.qryStart
        else anchors.downstream.qryEnd)
  case neg => rw [if_neg hq2] at hres; simp at hres
  case pos =>
  rw [if_pos hq2] at hres
  cases hgs : List.lookup refSp genomeSizes with
  | none => rw [hgs] at hres; simp at hres
  | some gsize =>
  rw [hgs] at hres
  simp only [] at hres
  by_cases hg3 : anchors.upstream.refEnd ≤ refCoords.loc ∧
      refCoords.loc < anchors.downstream.refStart
  case neg => rw [if_neg hg3] at hres; simp at hres
  case pos =>
  rw [if_pos hg3] at hres
  simp only [Except.ok.injEq, Option.some.injEq] at hres
  have hanch : res.anchors = anchors := by rw [← hres]
  have hloc : res.nextCoords.loc =
      (Int.floor (fl ((((if anchors.upstream.isQryReversed then anchors.downstream.qryStart
          else anchors.upstream.qryEnd) : Nat) : ℚ) +
        fl (fl (((refCoords.loc - anchors.upstream.refEnd : Nat) : ℚ) /
            ((anchors.downstream.refStart - anchors.upstream.refEnd : Nat) : ℚ)) *
          (((if anchors.upstream.isQryReversed then anchors.upstream.qryEnd
              else anchors.downstream.qryStart) -
            (if anchors.upstream.isQryReversed then anchors.downstream.qryStart
              else anchors.upstream.qryEnd) : Nat) : ℚ))))).toNat := by
    rw [← hres]
  rw [hanch] at hb1 hb2 ⊢
  refine ⟨hg3.1, hg3.2, hq1, ?_⟩
  rw [hloc]
  unfold specCaseBQryLoc
  cases hrev : anchors.upstream.isQryReversed with
  | false =>
    have hrevp : ¬ anchors.upstream.qryStart > anchors.upstream.qryEnd := by
      have h7 : ¬ anchors.upstream.qryEnd < anchors.upstream.qryStart := by
        simpa [PwalnEntry.isQryReversed] using hrev
      omega
    simp only [hrev, Bool.false_eq_true, if_false] at hq2 ⊢
    simp only [if_neg hrevp]
    rw [← natdiv_interp_eq anchors.upstream.qryEnd anchors.downstream.qryStart
      anchors.upstream.refEnd anchors.downstream.refStart refCoords.loc
      hg3.1 hg3.2 hq2.1]
    exact flInterp_within_one (refCoords.loc - anchors.upstream.refEnd)
      (anchors.downstream.refStart - anchors.upstream.refEnd)
      (anchors.downstream.qryStart - anchors.upstream.qryEnd)
      anchors.upstream.qryEnd
      (by omega) (by omega) (le_trans (Nat.sub_le _ _) hb2) hb1
  | true =>
    have hrevp : anchors.upstream.qryStart > anchors.upstream.qryEnd := by
      have h7 : anchors.upstream.qryEnd < anchors.upstream.qryStart := by
        simpa [PwalnEntry.isQryReversed] using hrev
      omega
    simp only [hrev, eq_self_iff_true, if_true] at hq2 ⊢
    simp only [if_pos hrevp]
    rw [← natdiv_interp_eq anchors.downstream.qryStart anchors.upstream.qryEnd
      anchors.upstream.refEnd anchors.downstream.refStart refCoords.loc
      hg3.1 hg3.2 hq2.1]
    exact flInterp_within_one (refCoords.loc - anchors.upstream.refEnd)
      (anchors.downstream.refStart - anchors.upstream.refEnd)
      (anchors.upstream.qryEnd - anchors.downstream.qryStart)
      anchors.downstream.qryStart
      (by omega) (by omega) (le_trans (Nat.sub_le _ _) hb1) hb2

set_option maxRecDepth 4000 in
/-- C4 (refuting evaluation): the interpolation is computed in `double`
precision, and its roundings cross an integer boundary on valid inputs.
Projecting `loc = 45` between the flanks `ref[20,30) → qry[20,30)` and
`ref[56,66) → qry[186,196)` (so `frac = 15/26` and the query span is
`156`): the division rounds `15/26` down, the product rounds to
`89.99999999999999289…`, the sum to `119.99999999999999289…`, and the
`uint32` cast truncates to `119` — while the claim's exact formula
`30 + floor((15/26) * 156) = 30 + 90` gives `120`. -/
theorem claim4_counterexample_double_rounding :
    projectGenomicLocation
      [(7, [(8, [(0, [⟨0, 10, 0, 10, 0, 0⟩, ⟨10, 20, 10, 20, 0, 0⟩, ⟨20, 30, 20, 30, 0, 0⟩,
        ⟨56, 66, 186, 196, 0, 0⟩, ⟨66, 76, 196, 206, 0, 0⟩, ⟨90, 100, 400, 390, 0, 0⟩])])])]
      [(7, 1000)] (fun _ _ _ _ _ => (1 : ℚ)) 7 8 ⟨0, 45⟩ 1 =
      .ok (some ⟨1, ⟨0, 119⟩, ⟨⟨20, 30, 20, 30, 0, 0⟩, ⟨56, 66, 186, 196, 0, 0⟩⟩⟩) ∧
    specCaseBQryLoc ⟨20, 30, 20, 30, 0, 0⟩ ⟨56, 66, 186, 196, 0, 0⟩ 45 = 120 := by
  constructor
  · have e1 : fl (((15 : Nat) : ℚ) / ((26 : Nat) : ℚ)) = 2598230554252209 / 2 ^ 52 := by
      with_unfolding_all rfl
    have e2 : fl (2598230554252209 / 2 ^ 52 * ((156 : Nat) : ℚ)) =
        6333186975989759 / 2 ^ 46 := by
      with_unfolding_all rfl
    have e3 : fl (((30 : Nat) : ℚ) + 6333186975989759 / 2 ^ 46) =
        8444249301319679 / 2 ^ 46 := by
      with_unfolding_all rfl
    have e4 : (Int.floor ((8444249301319679 : ℚ) / 2 ^ 46)).toNat = 119 := by
      with_unfolding_all rfl
    have e0 : projectGenomicLocation
        [(7, [(8, [(0, [⟨0, 10, 0, 10, 0, 0⟩, ⟨10, 20, 10, 20, 0, 0⟩, ⟨20, 30, 20, 30, 0, 0⟩,
          ⟨56, 66, 186, 196, 0, 0⟩, ⟨66, 76, 196, 206, 0, 0⟩, ⟨90, 100, 400, 390, 0, 0⟩])])])]
        [(7, 1000)] (fun _ _ _ _ _ => (1 : ℚ)) 7 8 ⟨0, 45⟩ 1 =
        .ok (some ⟨1, ⟨0, (Int.floor (fl (((30 : Nat) : ℚ) +
          fl (fl (((15 : Nat) : ℚ) / ((26 : Nat) : ℚ)) * ((156 : Nat) : ℚ))))).toNat⟩,
          ⟨⟨20, 30, 20, 30, 0, 0⟩, ⟨56, 66, 186, 196, 0, 0⟩⟩⟩) := by
      with_unfolding_all rfl
    rw [e1, e2, e3, e4] at e0
    exact e0
  · with_unfolding_all rfl

set_option maxRecDepth 4000 in
/-- C4 witness: the amended theorem applied to a concrete store (five
collinear forward entries plus one reversed entry on chromosome 0,
projecting `loc = 35` between the flanks `ref[20,30)→qry[20,30)` and
`ref[40,50)→qry[40,50)`, where every double rounding happens to be
exact: the program returns `35` and the spec formula also gives `35`,
within one of each other). -/
theorem claim4_amended_witness :
    projectGenomicLocation
      [(7, [(8, [(0, [⟨0, 10, 0, 10, 0, 0⟩, ⟨10, 20, 10, 20, 0, 0⟩, ⟨20, 30, 20, 30, 0, 0⟩,
        ⟨40, 50, 40, 50, 0, 0⟩, ⟨50, 60, 50, 60, 0, 0⟩, ⟨70, 80, 300, 290, 0, 0⟩])])])]
      [(7, 1000)] (fun _ _ _ _ _ => (1 : ℚ)) 7 8 ⟨0, 35⟩ 1 =
      .ok (some ⟨1, ⟨0, 35⟩, ⟨⟨20, 30, 20, 30, 0, 0⟩, ⟨40, 50, 40, 50, 0, 0⟩⟩⟩) ∧
    (⟨20, 30, 20, 30, 0, 0⟩ : PwalnEntry) ≠ (⟨40, 50, 40, 50, 0, 0⟩ : PwalnEntry) ∧
    specCaseBQryLoc ⟨20, 30, 20, 30, 0, 0⟩ ⟨40, 50, 40, 50, 0, 0⟩ 35 ≤ 35 + 1 ∧
    (35 : Nat) ≤ specCaseBQryLoc ⟨20, 30, 20, 30, 0, 0⟩ ⟨40, 50, 40, 50, 0, 0⟩ 35 + 1 := by
  have f1 : fl (((5 : Nat) : ℚ) / ((10 : Nat) : ℚ)) = 1 / 2 := by
    with_unfolding_all rfl
  have f2 : fl (1 / 2 * ((10 : Nat) : ℚ)) = 5 := by
    with_unfolding_all rfl
  have f3 : fl (((30 : Nat) : ℚ) + 5) = 35 := by
    with_unfolding_all rfl
  have f4 : (Int.floor ((35 : ℚ))).toNat = 35 := by
    with_unfolding_all rfl
  have hres : projectGenomicLocation
      [(7, [(8, [(0, [⟨0, 10, 0, 10, 0, 0⟩, ⟨10, 20, 10, 20, 0, 0⟩, ⟨20, 30, 20, 30, 0, 0⟩,
        ⟨40, 50, 40, 50, 0, 0⟩, ⟨50, 60, 50, 60, 0, 0⟩, ⟨70, 80, 300, 290, 0, 0⟩])])])]
      [(7, 1000)] (fun _ _ _ _ _ => (1 : ℚ)) 7 8 ⟨0, 35⟩ 1 =
      .ok (some ⟨1, ⟨0, 35⟩, ⟨⟨20, 30, 20, 30, 0, 0⟩, ⟨40, 50, 40, 50, 0, 0⟩⟩⟩) := by
    have e0 : projectGenomicLocation
        [(7, [(8, [(0, [⟨0, 10, 0, 10, 0, 0⟩, ⟨10, 20, 10, 20, 0, 0⟩, ⟨20, 30, 20, 30, 0, 0⟩,
          ⟨40, 50, 40, 50, 0, 0⟩, ⟨50, 60, 50, 60, 0, 0⟩, ⟨70, 80, 300, 290, 0, 0⟩])])])]
        [(7, 1000)] (fun _ _ _ _ _ => (1 : ℚ)) 7 8 ⟨0, 35⟩ 1 =
        .ok (some ⟨1, ⟨0, (Int.floor (fl (((30 : Nat) : ℚ) +
          fl (fl (((5 : Nat) : ℚ) / ((10 : Nat) : ℚ)) * ((10 : Nat) : ℚ))))).toNat⟩,
          ⟨⟨20, 30, 20, 30, 0, 0⟩, ⟨40, 50, 40, 50, 0, 0⟩⟩⟩) := by
      with_unfolding_all rfl
    rw [f1, f2, f3, f4] at e0
    exact e0
  refine ⟨hres, by decide, ?_, ?_⟩
  · exact (claim4_amended_interp_within_one
      [(7, [(8, [(0, [⟨0, 10, 0, 10, 0, 0⟩, ⟨10, 20, 10, 20, 0, 0⟩, ⟨20, 30, 20, 30, 0, 0⟩,
        ⟨40, 50, 40, 50, 0, 0⟩, ⟨50, 60, 50, 60, 0, 0⟩, ⟨70, 80, 300, 290, 0, 0⟩])])])]
      [(7, 1000)] (fun _ _ _ _ _ => (1 : ℚ)) 7 8 ⟨0, 35⟩ 1
      ⟨1, ⟨0, 35⟩, ⟨⟨20, 30, 20, 30, 0, 0⟩, ⟨40, 50, 40, 50, 0, 0⟩⟩⟩
      hres (by decide) (by decide) (by decide)).2.2.2.1
  · exact (claim4_amended_interp_within_one
      [(7, [(8, [(0, [⟨0, 10, 0, 10, 0, 0⟩, ⟨10, 20, 10, 20, 0, 0⟩, ⟨20, 30, 20, 30, 0, 0⟩,
        ⟨40, 50, 40, 50, 0, 0⟩, ⟨50, 60, 50, 60, 0, 0⟩, ⟨70, 80, 300, 290, 0, 0⟩])])])]
      [(7, 1000)] (fun _ _ _ _ _ => (1 : ℚ)) 7 8 ⟨0, 35⟩ 1
      ⟨1, ⟨0, 35⟩, ⟨⟨20, 30, 20, 30, 0, 0⟩, ⟨40, 50, 40, 50, 0, 0⟩⟩⟩
      hres (by decide) (by decide) (by decide)).2.2.2.2

/-! ## Claims C2 and C3 -/

/-- C2 (refuting evaluation): on a truncated input
(`num_chromosomes = 1`, name `"c0"`, `num_sp1 = 1`, name `"spA"`, then
EOF where `num_sp2` should follow), `loadPwalns` throws after having
already cleared the previous member state and partially repopulated it:
afterwards the chromosome table holds the new name and `pwalns_` holds a
half-built entry for `"spA"` — the state is neither the previous one,
nor fully replaced by new data (the load failed), nor empty. -/
theorem claim2_loadPwalns_partial_state_visible :
    loadPwalns (some [1, 0, 99, 48, 0, 1, 115, 112, 65, 0])
      ⟨[[111]], [([120], [])], [([120], 7)]⟩ =
      (.error .eofErr, ⟨[[99, 48]], [([115, 112, 65], [])], [([120], 7)]⟩) ∧
    ([[99, 48]] : List SpName) ≠ [] ∧ ([([115, 112, 65], [])] : PwState) ≠ [] := by
  refine ⟨rfl, by decide, ?_⟩
  intro h
  exact absurd (congrArg List.length h) (by decide)

/-- C3 counterexample: an input whose name table is empty while its one
pwaln entry carries `ref_chrom = 5` and `qry_chrom = 6` — both outside
the loaded name table — loads successfully: `loadPwalns` performs no
chromosome-id validation at all. -/
theorem claim3_counterexample_unknown_chrom_id :
    loadPwalns (some [0, 0, 1, 97, 0, 1, 98, 0, 1, 0, 0, 0, 1, 0, 0, 0,
        0, 0, 0, 0, 1, 0, 0, 0, 0, 0, 0, 0, 1, 0, 0, 0, 5, 0, 6, 0]) ⟨[], [], []⟩ =
      (.ok (), ⟨[], [([97], [([98], [(5, [⟨0, 1, 0, 1, 5, 6⟩])])])], []⟩) := by
  rfl

/-- C3 (amended): `loadPwalns` fails with a MalformedInput-kind error on
truncated input and on trailing bytes after the last expected record,
but it does not validate chromosome ids: an entry whose chromosome id is
outside the loaded name table is accepted without error. -/
theorem claim3_amended_loader_errors :
    (loadPwalns (some []) ⟨[], [], []⟩ = (.error .eofErr, ⟨[], [], []⟩)) ∧
    (loadPwalns (some [0, 0, 0, 7]) ⟨[], [], []⟩ = (.error .trailing, ⟨[], [], []⟩)) ∧
    (loadPwalns (some [0, 0, 1, 97, 0, 1, 98, 0, 1, 0, 0, 0, 1, 0, 0, 0,
        0, 0, 0, 0, 1, 0, 0, 0, 0, 0, 0, 0, 1, 0, 0, 0, 5, 0, 6, 0]) ⟨[], [], []⟩ =
      (.ok (), ⟨[], [([97], [([98], [(5, [⟨0, 1, 0, 1, 5, 6⟩])])])], []⟩)) :=
  ⟨rfl, rfl, rfl⟩

/-! ## Claim C7 -/

/-- C7 (refuting evaluation): a two-job batch whose second-popped job
throws.  The worker records the exception (`runWorker` returns `some 0`)
after having delivered the first callback, but the inline dispatcher
(`nCores ≤ 1`) returns without re-raising: `projectCoordsInline` yields
no exception to its caller. -/
theorem claim7_inline_swallows_worker_exception :
    runWorker (fun c : Coords => if c.loc = 1 then (.error 0 : Except Nat Nat) else .ok c.loc)
      [⟨0, 1⟩, ⟨0, 2⟩] = ([(⟨0, 2⟩, 2)], some 0) ∧
    projectCoordsInline
      (fun c : Coords => if c.loc = 1 then (.error 0 : Except Nat Nat) else .ok c.loc)
      [⟨0, 1⟩, ⟨0, 2⟩] = ([(⟨0, 2⟩, 2)], none) :=
  ⟨rfl, rfl⟩

/-! ## The pathfinder queue -/

theorem popMax_none_iff (l : List QEntry) : popMax l = none ↔ l = [] := by
  cases l with
  | nil => simp [popMax]
  | cons x xs =>
    simp only [popMax]
    cases popMax xs with
    | none => simp
    | some p =>
      obtain ⟨m, r⟩ := p
      simp only []
      by_cases h : qLt x m
      · rw [if_pos h]; simp
      · rw [if_neg h]; simp

theorem popMax_spec :
    ∀ (l : List QEntry) (m : QEntry) (r : List QEntry),
      popMax l = some (m, r) → l.Perm (m :: r) ∧ ∀ x ∈ l, x.score ≤ m.score := by
  intro l
  induction l with
  | nil => intro m r h; simp [popMax] at h
  | cons x xs ih =>
    intro m r h
    unfold popMax at h
    cases hx : popMax xs with
    | none =>
      rw [hx] at h
      have hxs : xs = [] := (popMax_none_iff xs).mp hx
      simp only [] at h
      simp only [Option.some.injEq, Prod.mk.injEq] at h
      obtain ⟨hm, hr⟩ := h
      subst hm
      subst hr
      subst hxs
      exact ⟨List.Perm.refl _, by intro y hy; simp at hy; rw [hy]⟩
    | some p =>
      obtain ⟨m2, rest2⟩ := p
      rw [hx] at h
      simp only [] at h
      obtain ⟨hperm2, hmax2⟩ := ih m2 rest2 hx
      by_cases hlt : qLt x m2
      · rw [if_pos hlt] at h
        simp only [Option.some.injEq, Prod.mk.injEq] at h
        obtain ⟨hm, hr⟩ := h
        subst hm
        subst hr
        constructor
        · exact (List.Perm.cons x hperm2).trans (List.Perm.swap _ x rest2)
        · intro y hy
          rcases List.mem_cons.mp hy with h1 | h1
          · rw [h1]
            rcases hlt with h2 | h2
            · exact le_of_lt h2
            · exact le_of_eq h2.1
          · exact hmax2 y h1
      · rw [if_neg hlt] at h
        simp only [Option.some.injEq, Prod.mk.injEq] at h
        obtain ⟨hm, hr⟩ := h
        subst hm
        subst hr
        constructor
        · exact List.Perm.refl _
        · intro y hy
          rcases List.mem_cons.mp hy with h1 | h1
          · rw [h1]
          · refine le_trans (hmax2 y h1) ?_
            unfold qLt at hlt
            push_neg at hlt
            exact hlt.1

/-! ## Claim C5 -/

theorem nbrStep_inv5 {hop : Nat → Nat → Coords → Option (ℚ × Coords)}
    {refSp qrySp : Nat} {cur : QEntry} {st : DState} {nxt : Nat}
    (hhop : HopWF hop)
    (hpos : 0 < cur.score) (hle1 : cur.score ≤ 1)
    (hcur1 : cur.species = refSp → cur.score = 1)
    (h : Inv5 refSp qrySp st) :
    Inv5 refSp qrySp (nbrStep hop refSp qrySp cur st nxt) := by
  obtain ⟨hA, hQ, hC, hD⟩ := h
  unfold nbrStep
  cases hit : st.sp nxt with
  | some it =>
    simp only []
    by_cases hskip : cur.score ≤ it.score
    · rw [if_pos hskip]
      exact ⟨hA, hQ, hC, hD⟩
    · rw [if_neg hskip]
      cases hh : hop cur.species nxt cur.coords with
      | none => exact ⟨hA, hQ, hC, hD⟩
      | some sc =>
        have hs := hhop _ _ _ _ hh
        have hprod1 : cur.score * sc.1 ≤ 1 := by
          calc cur.score * sc.1 ≤ cur.score * 1 :=
              mul_le_mul_of_nonneg_left hs.2 (le_of_lt hpos)
            _ = cur.score := mul_one _
            _ ≤ 1 := hle1
        simp only []
        by_cases himp : cur.score * sc.1 ≤ it.score
        · rw [if_pos himp]
          refine ⟨hA, hQ, hC, ?_⟩
          intro d hd
          simp only [] at hd
          by_cases hdir : cur.species = refSp ∧ nxt = qrySp
          · rw [if_pos hdir] at hd
            have hdsc : d = sc := by
              simpa using hd.symm
            subst hdsc
            refine ⟨it, by rw [← hdir.2]; exact hit, ?_⟩
            have h1 : cur.score = 1 := hcur1 hdir.1
            rw [h1, one_mul] at himp
            exact himp
          · rw [if_neg hdir] at hd
            exact hD d hd
        · rw [if_neg himp]
          obtain ⟨r0, hr0, hr1⟩ := hC
          have hnref : nxt ≠ refSp := by
            intro hc
            subst hc
            rw [hit] at hr0
            have : it = r0 := by simpa using hr0
            subst this
            rw [hr1] at himp
            exact himp hprod1
          refine ⟨?_, ?_, ?_, ?_⟩
          · intro e he
            simp only [] at he
            rcases List.mem_append.mp he with h1 | h1
            · exact hA e h1
            · have he2 : e = ⟨cur.score * sc.1, nxt, sc.2⟩ := by simpa using h1
              subst he2
              exact ⟨mul_pos hpos hs.1, hprod1⟩
          · intro e he
            simp only [] at he
            rcases List.mem_append.mp he with h1 | h1
            · exact hQ e h1
            · have he2 : e = ⟨cur.score * sc.1, nxt, sc.2⟩ := by simpa using h1
              subst he2
              intro hsp
              exact absurd hsp hnref
          · refine ⟨r0, ?_, hr1⟩
            simp only []
            rw [Function.update_noteq (Ne.symm hnref)]
            exact hr0
          · intro d hd
            simp only [] at hd
            by_cases hdir : cur.species = refSp ∧ nxt = qrySp
            · rw [if_pos hdir] at hd
              have hdsc : d = sc := by simpa using hd.symm
              subst hdsc
              refine ⟨⟨cur.score * d.1, some cur.species, d.2⟩, ?_, ?_⟩
              · simp only []
                rw [← hdir.2, Function.update_same]
              · have h1 : cur.score = 1 := hcur1 hdir.1
                rw [h1, one_mul]
            · rw [if_neg hdir] at hd
              obtain ⟨e0, he0, he1⟩ := hD d hd
              by_cases hq : nxt = qrySp
              · subst hq
                rw [hit] at he0
                have : e0 = it := by simpa using he0.symm
                subst this
                refine ⟨⟨cur.score * sc.1, some cur.species, sc.2⟩, ?_, ?_⟩
                · simp only []
                  rw [Function.update_same]
                · push_neg at himp
                  exact le_trans he1 (le_of_lt himp)
              · refine ⟨e0, ?_, he1⟩
                simp only []
                rw [Function.update_noteq (Ne.symm hq)]
                exact he0
  | none =>
    simp only []
    cases hh : hop cur.species nxt cur.coords with
    | none => exact ⟨hA, hQ, hC, hD⟩
    | some sc =>
      have hs := hhop _ _ _ _ hh
      have hprod1 : cur.score * sc.1 ≤ 1 := by
        calc cur.score * sc.1 ≤ cur.score * 1 :=
            mul_le_mul_of_nonneg_left hs.2 (le_of_lt hpos)
          _ = cur.score := mul_one _
          _ ≤ 1 := hle1
      obtain ⟨r0, hr0, hr1⟩ := hC
      have hnref : nxt ≠ refSp := by
        intro hc
        subst hc
        rw [hit] at hr0
        exact Option.noConfusion hr0
      simp only []
      refine ⟨?_, ?_, ?_, ?_⟩
      · intro e he
        simp only [] at he
        rcases List.mem_append.mp he with h1 | h1
        · exact hA e h1
        · have he2 : e = ⟨cur.score * sc.1, nxt, sc.2⟩ := by simpa using h1
          subst he2
          exact ⟨mul_pos hpos hs.1, hprod1⟩
      · intro e he
        simp only [] at he
        rcases List.mem_append.mp he with h1 | h1
        · exact hQ e h1
        · have he2 : e = ⟨cur.score * sc.1, nxt, sc.2⟩ := by simpa using h1
          subst he2
          intro hsp
          exact absurd hsp hnref
      · refine ⟨r0, ?_, hr1⟩
        simp only []
        rw [Function.update_noteq (Ne.symm hnref)]
        exact hr0
      · intro d hd
        simp only [] at hd
        by_cases hdir : cur.species = refSp ∧ nxt = qrySp
        · rw [if_pos hdir] at hd
          have hdsc : d = sc := by simpa using hd.symm
          subst hdsc
          refine ⟨⟨cur.score * d.1, some cur.species, d.2⟩, ?_, ?_⟩
          · simp only []
            rw [← hdir.2, Function.update_same]
          · have h1 : cur.score = 1 := hcur1 hdir.1
            rw [h1, one_mul]
        · rw [if_neg hdir] at hd
          obtain ⟨e0, he0, he1⟩ := hD d hd
          by_cases hq : nxt = qrySp
          · subst hq
            rw [hit] at he0
            exact Option.noConfusion he0
          · refine ⟨e0, ?_, he1⟩
            simp only []
            rw [Function.update_noteq (Ne.symm hq)]
            exact he0

theorem processNbrs_inv5 {hop : Nat → Nat → Coords → Option (ℚ × Coords)}
    {refSp qrySp : Nat} {cur : QEntry}
    (hhop : HopWF hop)
    (hpos : 0 < cur.score) (hle1 : cur.score ≤ 1)
    (hcur1 : cur.species = refSp → cur.score = 1) :
    ∀ (nbrs : List Nat) (st : DState), Inv5 refSp qrySp st →
      Inv5 refSp qrySp (processNbrs hop refSp qrySp cur nbrs st) := by
  intro nbrs
  induction nbrs with
  | nil => intro st h; exact h
  | cons n rest ih =>
    intro st h
    unfold processNbrs at ih ⊢
    rw [List.foldl_cons]
    exact ih _ (nbrStep_inv5 hhop hpos hle1 hcur1 h)

theorem loopGo_inv5_done {graph : List (Nat × List Nat)}
    {hop : Nat → Nat → Coords → Option (ℚ × Coords)} {refSp qrySp : Nat}
    (hhop : HopWF hop) :
    ∀ (fuel : Nat) (st : DState), Inv5 refSp qrySp st →
      ∀ proj, loopGo graph hop refSp qrySp fuel st = LoopRes.done proj →
        ∀ d, proj.direct = some d → ∃ e, proj.multi qrySp = some e ∧ d.1 ≤ e.score := by
  intro fuel
  induction fuel with
  | zero =>
    intro st hinv proj h d hd
    unfold loopGo at h
    cases hpop : popMax st.queue with
    | none =>
      rw [hpop] at h
      simp only [] at h
      have hproj : proj = ⟨st.direct, st.sp⟩ := by
        cases h
        rfl
      subst hproj
      simp only [] at hd ⊢
      obtain ⟨e, he, hle⟩ := hinv.2.2.2 d hd
      exact ⟨e, he, hle⟩
    | some p =>
      rw [hpop] at h
      simp only [] at h
      exact LoopRes.noConfusion h
  | succ f ih =>
    intro st hinv proj h d hd
    unfold loopGo at h
    cases hpop : popMax st.queue with
    | none =>
      rw [hpop] at h
      simp only [] at h
      have hproj : proj = ⟨st.direct, st.sp⟩ := by
        cases h
        rfl
      subst hproj
      simp only [] at hd ⊢
      obtain ⟨e, he, hle⟩ := hinv.2.2.2 d hd
      exact ⟨e, he, hle⟩
    | some p =>
      obtain ⟨cur, rest⟩ := p
      rw [hpop] at h
      simp only [] at h
      obtain ⟨hperm, hmax⟩ := popMax_spec _ _ _ hpop
      have hcurmem : cur ∈ st.queue := hperm.mem_iff.mpr (List.mem_cons_self _ _)
      have hpos := (hinv.1 cur hcurmem).1
      have hle1 := (hinv.1 cur hcurmem).2
      have hcur1 := hinv.2.1 cur hcurmem
      have hinv2 : Inv5 refSp qrySp ⟨st.sp, rest, st.direct⟩ := by
        refine ⟨?_, ?_, hinv.2.2.1, hinv.2.2.2⟩
        · intro e he
          exact hinv.1 e (hperm.mem_iff.mpr (List.mem_cons_of_mem _ he))
        · intro e he
          exact hinv.2.1 e (hperm.mem_iff.mpr (List.mem_cons_of_mem _ he))
      cases hrec : st.sp cur.species with
      | some rec2 =>
        rw [hrec] at h
        simp only [] at h
        by_cases hstale : cur.score < rec2.score
        · rw [if_pos (decide_eq_true hstale)] at h
          exact ih _ hinv2 proj h d hd
        · rw [if_neg (fun hc => hstale (of_decide_eq_true hc))] at h
          by_cases hq : cur.species = qrySp
          · rw [if_pos hq] at h
            have hproj : proj = ⟨st.direct, st.sp⟩ := by
              cases h
              rfl
            subst hproj
            simp only [] at hd ⊢
            obtain ⟨e, he, hle⟩ := hinv.2.2.2 d hd
            exact ⟨e, he, hle⟩
          · rw [if_neg hq] at h
            cases hlk : List.lookup cur.species graph with
            | none =>
              rw [hlk] at h
              simp only [] at h
              exact LoopRes.noConfusion h
            | some nbrs =>
              rw [hlk] at h
              simp only [] at h
              exact ih _ (processNbrs_inv5 hhop hpos hle1 hcur1 nbrs _ hinv2) proj h d hd
      | none =>
        rw [hrec] at h
        simp only [] at h
        rw [if_neg Bool.false_ne_true] at h
        by_cases hq : cur.species = qrySp
        · rw [if_pos hq] at h
          have hproj : proj = ⟨st.direct, st.sp⟩ := by
            cases h
            rfl
          subst hproj
          simp only [] at hd ⊢
          obtain ⟨e, he, hle⟩ := hinv.2.2.2 d hd
          exact ⟨e, he, hle⟩
        · rw [if_neg hq] at h
          cases hlk : List.lookup cur.species graph with
          | none =>
            rw [hlk] at h
            simp only [] at h
            exact LoopRes.noConfusion h
          | some nbrs =>
            rw [hlk] at h
            simp only [] at h
            exact ih _ (processNbrs_inv5 hhop hpos hle1 hcur1 nbrs _ hinv2) proj h d hd

/-- C5: whenever `projectCoord` finishes normally and has recorded both a
direct (single-hop `ref → qry`) projection and a multi-hop shortest-path
entry for the qry species, the multi-hop score is at least the direct
score. -/
theorem claim5_multi_ge_direct {graph : List (Nat × List Nat)}
    {hop : Nat → Nat → Coords → Option (ℚ × Coords)} {refSp qrySp : Nat}
    {refCoords : Coords} {proj : CoordProjection} {d : ℚ × Coords} {e : PathEntry}
    (hhop : HopWF hop)
    (hres : projectCoord graph hop refSp qrySp refCoords = LoopRes.done proj)
    (hdir : proj.direct = some d) (hmul : proj.multi qrySp = some e) :
    d.1 ≤ e.score := by
  have hinv : Inv5 refSp qrySp (initDState refSp refCoords) := by
    refine ⟨?_, ?_, ?_, ?_⟩
    · intro x hx
      have hx2 : x = ⟨1, refSp, refCoords⟩ := by simpa [initDState] using hx
      subst hx2
      exact ⟨one_pos, le_refl 1⟩
    · intro x hx
      have hx2 : x = ⟨1, refSp, refCoords⟩ := by simpa [initDState] using hx
      subst hx2
      intro hsp
      rfl
    · refine ⟨⟨1, none, refCoords⟩, ?_, rfl⟩
      simp [initDState]
    · intro d hd
      simp [initDState] at hd
  obtain ⟨e2, he2, hle⟩ := loopGo_inv5_done hhop _ _ hinv proj hres d hdir
  rw [hmul] at he2
  have : e2 = e := by simpa using he2.symm
  subst this
  exact hle

theorem claim5_multi_ge_direct_witness :
    projectCoord [(0, [1]), (1, [0])] (fun _ _ c => some (1, c)) 0 1 ⟨0, 5⟩ =
      LoopRes.done ⟨some (1, ⟨0, 5⟩),
        Function.update
          (fun X => if X = 0 then some ⟨1, none, ⟨0, 5⟩⟩ else none) 1
          (some ⟨1, some 0, ⟨0, 5⟩⟩)⟩ ∧
    (1 : ℚ) ≤ (1 : ℚ) := by
  have hhop : HopWF (fun _ _ c => some (1, c)) := by
    intro a b c r hr
    have hr2 : r = (1, c) := by simpa using hr.symm
    subst hr2
    exact ⟨one_pos, le_refl 1⟩
  have hres : projectCoord [(0, [1]), (1, [0])] (fun _ _ c => some (1, c)) 0 1 ⟨0, 5⟩ =
      LoopRes.done ⟨some (1, ⟨0, 5⟩),
        Function.update
          (fun X => if X = 0 then some ⟨1, none, ⟨0, 5⟩⟩ else none) 1
          (some ⟨1, some 0, ⟨0, 5⟩⟩)⟩ := by
    with_unfolding_all rfl
  refine ⟨hres, ?_⟩
  exact claim5_multi_ge_direct hhop hres rfl (by with_unfolding_all rfl)

/-! ## Claim C6 -/

theorem qSameNe_symm {a b : QEntry} (h : qSameNe a b) : qSameNe b a :=
  fun hsp hsc => h hsp.symm hsc.symm

theorem lookup_mem_pair {k : Nat} {v : List Nat} :
    ∀ (l : List (Nat × List Nat)), List.lookup k l = some v → (k, v) ∈ l := by
  intro l
  induction l with
  | nil => intro h; simp [List.lookup] at h
  | cons p rest ih =>
    intro h
    obtain ⟨a, b⟩ := p
    rw [List.lookup] at h
    by_cases hk : k = a
    · subst hk
      simp at h
      subst h
      exact List.mem_cons_self _ _
    · have hbeq : (k == a) = false := by simpa using hk
      rw [hbeq] at h
      simp only [] at h
      exact List.mem_cons_of_mem _ (ih h)

theorem nbrStep_inv6 {hop : Nat → Nat → Coords → Option (ℚ × Coords)}
    {refSp qrySp : Nat} {cur : QEntry} {st : DState} {nxt : Nat} {A : Finset Nat}
    (hhop : HopWF hop) (hpos : 0 < cur.score)
    (h : Inv6 A cur.score st) :
    Inv6 A cur.score (nbrStep hop refSp qrySp cur st nxt) ∧
      (nbrStep hop refSp qrySp cur st nxt).queue.length ≤
        st.queue.length + (if nxt ∈ A then 0 else 1) := by
  obtain ⟨h0, h1, h2, h3, h4, h5⟩ := h
  unfold nbrStep
  cases hit : st.sp nxt with
  | some it =>
    simp only []
    by_cases hskip : cur.score ≤ it.score
    · rw [if_pos hskip]
      exact ⟨⟨h0, h1, h2, h3, h4, h5⟩, Nat.le_add_right _ _⟩
    · rw [if_neg hskip]
      have hnA : nxt ∉ A := by
        intro hc
        obtain ⟨r, hr, hlam⟩ := h3 nxt hc
        rw [hit] at hr
        have : r = it := by simpa using hr.symm
        subst this
        exact hskip hlam
      cases hh : hop cur.species nxt cur.coords with
      | none => exact ⟨⟨h0, h1, h2, h3, h4, h5⟩, Nat.le_add_right _ _⟩
      | some sc =>
        have hs := hhop _ _ _ _ hh
        have hns : cur.score * sc.1 ≤ cur.score := by
          calc cur.score * sc.1 ≤ cur.score * 1 :=
              mul_le_mul_of_nonneg_left hs.2 (le_of_lt hpos)
            _ = cur.score := mul_one _
        simp only []
        by_cases himp : cur.score * sc.1 ≤ it.score
        · rw [if_pos himp]
          exact ⟨⟨h0, h1, h2, h3, h4, h5⟩, Nat.le_add_right _ _⟩
        · rw [if_neg himp]
          push_neg at himp
          constructor
          · refine ⟨?_, ?_, ?_, ?_, ?_, ?_⟩
            · intro e he
              simp only [] at he
              rcases List.mem_append.mp he with hh1 | hh1
              · exact h0 e hh1
              · have he2 : e = ⟨cur.score * sc.1, nxt, sc.2⟩ := by simpa using hh1
                subst he2
                exact mul_pos hpos hs.1
            · intro e he
              simp only [] at he
              rcases List.mem_append.mp he with hh1 | hh1
              · exact h1 e hh1
              · have he2 : e = ⟨cur.score * sc.1, nxt, sc.2⟩ := by simpa using hh1
                subst he2
                exact hns
            · intro e he
              simp only [] at he
              rcases List.mem_append.mp he with hh1 | hh1
              · obtain ⟨r, hr, hler⟩ := h2 e hh1
                by_cases hsp : e.species = nxt
                · rw [hsp, hit] at hr
                  have : r = it := by simpa using hr.symm
                  subst this
                  refine ⟨⟨cur.score * sc.1, some cur.species, sc.2⟩, ?_, ?_⟩
                  · simp only []
                    rw [hsp, Function.update_same]
                  · exact le_of_lt (lt_of_le_of_lt hler himp)
                · refine ⟨r, ?_, hler⟩
                  simp only []
                  rw [Function.update_noteq hsp]
                  exact hr
              · have he2 : e = ⟨cur.score * sc.1, nxt, sc.2⟩ := by simpa using hh1
                subst he2
                refine ⟨⟨cur.score * sc.1, some cur.species, sc.2⟩, ?_, le_refl _⟩
                simp only []
                rw [Function.update_same]
            · intro X hX
              obtain ⟨r, hr, hlam⟩ := h3 X hX
              have hXne : X ≠ nxt := fun hc => hnA (hc ▸ hX)
              refine ⟨r, ?_, hlam⟩
              simp only []
              rw [Function.update_noteq hXne]
              exact hr
            · intro e he hmem
              simp only [] at he
              rcases List.mem_append.mp he with hh1 | hh1
              · obtain ⟨r, hr, hlt⟩ := h4 e hh1 hmem
                have hsp : e.species ≠ nxt := fun hc => hnA (hc ▸ hmem)
                refine ⟨r, ?_, hlt⟩
                simp only []
                rw [Function.update_noteq hsp]
                exact hr
              · have he2 : e = ⟨cur.score * sc.1, nxt, sc.2⟩ := by simpa using hh1
                subst he2
                exact absurd hmem hnA
            · simp only []
              rw [List.pairwise_append]
              refine ⟨h5, by simp, ?_⟩
              intro a ha b hb
              have hb2 : b = ⟨cur.score * sc.1, nxt, sc.2⟩ := by simpa using hb
              subst hb2
              intro hsp hsc
              obtain ⟨r, hr, hler⟩ := h2 a ha
              rw [hsp, hit] at hr
              have : r = it := by simpa using hr.symm
              subst this
              rw [hsc] at hler
              exact absurd himp (not_lt.mpr hler)
          · simp only [List.length_append, List.length_singleton]
            rw [if_neg hnA]
  | none =>
    simp only []
    cases hh : hop cur.species nxt cur.coords with
    | none => exact ⟨⟨h0, h1, h2, h3, h4, h5⟩, Nat.le_add_right _ _⟩
    | some sc =>
      have hs := hhop _ _ _ _ hh
      have hns : cur.score * sc.1 ≤ cur.score := by
        calc cur.score * sc.1 ≤ cur.score * 1 :=
            mul_le_mul_of_nonneg_left hs.2 (le_of_lt hpos)
          _ = cur.score := mul_one _
      have hnA : nxt ∉ A := by
        intro hc
        obtain ⟨r, hr, _⟩ := h3 nxt hc
        rw [hit] at hr
        exact Option.noConfusion hr
      have hnosp : ∀ e ∈ st.queue, e.species ≠ nxt := by
        intro e he hc
        obtain ⟨r, hr, _⟩ := h2 e he
        rw [hc, hit] at hr
        exact Option.noConfusion hr
      simp only []
      constructor
      · refine ⟨?_, ?_, ?_, ?_, ?_, ?_⟩
        · intro e he
          simp only [] at he
          rcases List.mem_append.mp he with hh1 | hh1
          · exact h0 e hh1
          · have he2 : e = ⟨cur.score * sc.1, nxt, sc.2⟩ := by simpa using hh1
            subst he2
            exact mul_pos hpos hs.1
        · intro e he
          simp only [] at he
          rcases List.mem_append.mp he with hh1 | hh1
          · exact h1 e hh1
          · have he2 : e = ⟨cur.score * sc.1, nxt, sc.2⟩ := by simpa using hh1
            subst he2
            exact hns
        · intro e he
          simp only [] at he
          rcases List.mem_append.mp he with hh1 | hh1
          · obtain ⟨r, hr, hler⟩ := h2 e hh1
            refine ⟨r, ?_, hler⟩
            simp only []
            rw [Function.update_noteq (hnosp e hh1)]
            exact hr
          · have he2 : e = ⟨cur.score * sc.1, nxt, sc.2⟩ := by simpa using hh1
            subst he2
            refine ⟨⟨cur.score * sc.1, some cur.species, sc.2⟩, ?_, le_refl _⟩
            simp only []
            rw [Function.update_same]
        · intro X hX
          obtain ⟨r, hr, hlam⟩ := h3 X hX
          have hXne : X ≠ nxt := fun hc => hnA (hc ▸ hX)
          refine ⟨r, ?_, hlam⟩
          simp only []
          rw [Function.update_noteq hXne]
          exact hr
        · intro e he hmem
          simp only [] at he
          rcases List.mem_append.mp he with hh1 | hh1
          · obtain ⟨r, hr, hlt⟩ := h4 e hh1 hmem
            refine ⟨r, ?_, hlt⟩
            simp only []
            rw [Function.update_noteq (hnosp e hh1)]
            exact hr
          · have he2 : e = ⟨cur.score * sc.1, nxt, sc.2⟩ := by simpa using hh1
            subst he2
            exact absurd hmem hnA
        · simp only []
          rw [List.pairwise_append]
          refine ⟨h5, by simp, ?_⟩
          intro a ha b hb
          have hb2 : b = ⟨cur.score * sc.1, nxt, sc.2⟩ := by simpa using hb
          subst hb2
          intro hsp hsc
          exact absurd hsp (hnosp a ha)
      · simp only [List.length_append, List.length_singleton]
        rw [if_neg hnA]

theorem processNbrs_inv6 {hop : Nat → Nat → Coords → Option (ℚ × Coords)}
    {refSp qrySp : Nat} {cur : QEntry} {A : Finset Nat}
    (hhop : HopWF hop) (hpos : 0 < cur.score) :
    ∀ (nbrs : List Nat) (st : DState), Inv6 A cur.score st →
      Inv6 A cur.score (processNbrs hop refSp qrySp cur nbrs st) ∧
        (processNbrs hop refSp qrySp cur nbrs st).queue.length ≤
          st.queue.length + (nbrs.filter (fun x => decide (x ∉ A))).length := by
  intro nbrs
  induction nbrs with
  | nil => intro st h; exact ⟨h, by simp [processNbrs]⟩
  | cons n rest ih =>
    intro st h
    obtain ⟨hJ, hlen⟩ := @nbrStep_inv6 hop refSp qrySp cur st n A hhop hpos h
    unfold processNbrs at ih ⊢
    rw [List.foldl_cons]
    obtain ⟨hJ2, hlen2⟩ := ih _ hJ
    refine ⟨hJ2, ?_⟩
    rw [List.filter_cons]
    by_cases hn : n ∈ A
    · rw [if_pos hn] at hlen
      have hd : (decide (n ∉ A)) = false := decide_eq_false (not_not_intro hn)
      rw [hd]
      simp only [Bool.false_eq_true, if_false]
      omega
    · rw [if_neg hn] at hlen
      have hd : (decide (n ∉ A)) = true := decide_eq_true hn
      rw [hd]
      simp only [if_true, List.length_cons]
      omega

theorem filter_notMem_length_le {nbrs keys : List Nat} {A : Finset Nat}
    (hn : nbrs.Nodup) (hsub : ∀ x ∈ nbrs, x ∈ keys) (hk : keys.Nodup)
    (hA : ∀ x ∈ A, x ∈ keys) :
    (nbrs.filter (fun x => decide (x ∉ A))).length + A.card ≤ keys.length := by
  have hfn : (nbrs.filter (fun x => decide (x ∉ A))).Nodup := hn.filter _
  have hlen : (nbrs.filter (fun x => decide (x ∉ A))).toFinset.card
      = (nbrs.filter (fun x => decide (x ∉ A))).length := List.toFinset_card_of_nodup hfn
  have hksub : A ⊆ keys.toFinset := by
    intro x hx
    exact List.mem_toFinset.mpr (hA x hx)
  have hsub2 : (nbrs.filter (fun x => decide (x ∉ A))).toFinset ⊆ keys.toFinset \ A := by
    intro x hx
    rw [List.mem_toFinset, List.mem_filter] at hx
    rw [Finset.mem_sdiff]
    refine ⟨List.mem_toFinset.mpr (hsub x hx.1), ?_⟩
    simpa using hx.2
  have hcard := Finset.card_le_card hsub2
  rw [hlen, Finset.card_sdiff hksub, List.toFinset_card_of_nodup hk] at hcard
  have hAcard : A.card ≤ keys.length := by
    calc A.card ≤ keys.toFinset.card := Finset.card_le_card hksub
      _ = keys.length := List.toFinset_card_of_nodup hk
  omega

theorem loopGo_inv6_no_fuelOut {graph : List (Nat × List Nat)}
    {hop : Nat → Nat → Coords → Option (ℚ × Coords)} {refSp qrySp : Nat}
    (hhop : HopWF hop) (hg : GraphWF graph refSp) :
    ∀ (fuel : Nat) (st : DState) (A : Finset Nat) (lam : ℚ),
      Inv6 A lam st → (∀ x ∈ A, x ∈ graph.map Prod.fst) →
      dBound (graph.map Prod.fst).length A st ≤ fuel →
      loopGo graph hop refSp qrySp fuel st ≠ LoopRes.fuelOut := by
  intro fuel
  induction fuel with
  | zero =>
    intro st A lam hinv hA hB
    unfold loopGo
    cases hpop : popMax st.queue with
    | none =>
      simp only []
      exact fun h => LoopRes.noConfusion h
    | some p =>
      exfalso
      obtain ⟨cur, rest⟩ := p
      obtain ⟨hperm, _⟩ := popMax_spec _ _ _ hpop
      have hlen := hperm.length_eq
      unfold dBound at hB
      simp only [List.length_cons] at hlen
      omega
  | succ f ih =>
    intro st A lam hinv hA hB
    unfold loopGo
    cases hpop : popMax st.queue with
    | none =>
      simp only []
      exact fun h => LoopRes.noConfusion h
    | some p =>
      obtain ⟨cur, rest⟩ := p
      simp only []
      obtain ⟨hperm, hmax⟩ := popMax_spec _ _ _ hpop
      have hcurmem : cur ∈ st.queue := hperm.mem_iff.mpr (List.mem_cons_self _ _)
      obtain ⟨h0, h1, h2, h3, h4, h5⟩ := hinv
      have hrest_mem : ∀ e ∈ rest, e ∈ st.queue :=
        fun e he => hperm.mem_iff.mpr (List.mem_cons_of_mem _ he)
      have h5c : List.Pairwise qSameNe (cur :: rest) :=
        (List.Perm.pairwise_iff (fun hab => qSameNe_symm hab) hperm).mp h5
      have h5rest : List.Pairwise qSameNe rest := h5c.of_cons
      have hcur_rest : ∀ e ∈ rest, qSameNe cur e :=
        fun e he => List.rel_of_pairwise_cons h5c he
      have hqlen := hperm.length_eq
      simp only [List.length_cons] at hqlen
      have hpos : 0 < cur.score := h0 cur hcurmem
      cases hrec : st.sp cur.species with
      | some rec2 =>
        simp only []
        by_cases hstale : cur.score < rec2.score
        · rw [if_pos (decide_eq_true hstale)]
          refine ih _ A lam ⟨?_, ?_, ?_, h3, ?_, h5rest⟩ hA ?_
          · intro e he
            exact h0 e (hrest_mem e he)
          · intro e he
            exact h1 e (hrest_mem e he)
          · intro e he
            exact h2 e (hrest_mem e he)
          · intro e he
            exact h4 e (hrest_mem e he)
          · unfold dBound at hB ⊢
            simp only [] at hB ⊢
            omega
        · rw [if_neg (fun hc => hstale (of_decide_eq_true hc))]
          by_cases hq : cur.species = qrySp
          · rw [if_pos hq]
            exact fun h => LoopRes.noConfusion h
          · rw [if_neg hq]
            cases hlk : List.lookup cur.species graph with
            | none =>
              simp only []
              exact fun h => LoopRes.noConfusion h
            | some nbrs =>
              simp only []
              have hpair := lookup_mem_pair _ hlk
              have hcurkey : cur.species ∈ graph.map Prod.fst :=
                List.mem_map.mpr ⟨_, hpair, rfl⟩
              have hcurA : cur.species ∉ A := by
                intro hc
                obtain ⟨r, hr, hlt⟩ := h4 cur hcurmem hc
                rw [hrec] at hr
                have : r = rec2 := by simpa using hr.symm
                subst this
                exact hstale hlt
              obtain ⟨r2, hr2, hle2⟩ := h2 cur hcurmem
              rw [hrec] at hr2
              have hle2c : cur.score ≤ rec2.score := by
                have he : rec2 = r2 := by simpa using hr2
                rw [he]
                exact hle2
              have hinv2 : Inv6 (insert cur.species A) cur.score ⟨st.sp, rest, st.direct⟩ := by
                refine ⟨?_, ?_, ?_, ?_, ?_, h5rest⟩
                · intro e he
                  exact h0 e (hrest_mem e he)
                · intro e he
                  exact hmax e (hrest_mem e he)
                · intro e he
                  exact h2 e (hrest_mem e he)
                · intro X hX
                  rcases Finset.mem_insert.mp hX with hX1 | hX1
                  · subst hX1
                    exact ⟨rec2, hrec, hle2c⟩
                  · obtain ⟨r, hr, hlam⟩ := h3 X hX1
                    exact ⟨r, hr, le_trans (h1 cur hcurmem) hlam⟩
                · intro e he hmem
                  rcases Finset.mem_insert.mp hmem with hm1 | hm1
                  · refine ⟨rec2, ?_, ?_⟩
                    · simp only []
                      rw [hm1]
                      exact hrec
                    · have hne := hcur_rest e he hm1.symm
                      have hle := hmax e (hrest_mem e he)
                      have hrs : rec2.score = cur.score := le_antisymm (not_lt.mp hstale) hle2c
                      rw [hrs]
                      exact lt_of_le_of_ne hle (fun hc => hne hc.symm)
                  · exact h4 e (hrest_mem e he) hm1
              obtain ⟨hJ3, hlen3⟩ :=
                processNbrs_inv6 hhop hpos nbrs ⟨st.sp, rest, st.direct⟩ hinv2
              refine ih _ (insert cur.species A) cur.score hJ3 ?_ ?_
              · intro x hx
                rcases Finset.mem_insert.mp hx with hx1 | hx1
                · subst hx1
                  exact hcurkey
                · exact hA x hx1
              · have hnodup := (hg.2.2 _ hpair).1
                have hnsub := (hg.2.2 _ hpair).2
                have hcount := @filter_notMem_length_le nbrs (graph.map Prod.fst)
                  (insert cur.species A) hnodup hnsub hg.1 ?_
                · have hcardA : (insert cur.species A).card = A.card + 1 :=
                    Finset.card_insert_of_not_mem hcurA
                  unfold dBound at hB ⊢
                  simp only [] at hlen3 hB ⊢
                  rw [hcardA] at hcount ⊢
                  set n := (graph.map Prod.fst).length with hn
                  have hc1 : A.card + 1 ≤ n := by omega
                  have key : (n - (A.card + 1)) * (n - 1) + (n - (A.card + 1)) ≤
                      (n - A.card) * (n - 1) := by
                    have e1 : n - A.card = (n - (A.card + 1)) + 1 := by omega
                    rw [e1, add_mul, one_mul]
                    have e2 : n - (A.card + 1) ≤ n - 1 := by omega
                    exact Nat.add_le_add_left e2 _
                  omega
                · intro x hx
                  rcases Finset.mem_insert.mp hx with hx1 | hx1
                  · subst hx1
                    exact hcurkey
                  · exact hA x hx1
      | none =>
        exfalso
        obtain ⟨r, hr, _⟩ := h2 cur hcurmem
        rw [hrec] at hr
        exact Option.noConfusion hr

/-- C6: the best-first search of `projectCoord` pops the queue at most
`|species|²` times.  With a well-formed species graph and hop scores in
`(0, 1]`, running the loop with fuel `|species|²` (one unit per pop)
never exhausts the fuel, for every ref/qry species and start
coordinate. -/
theorem claim6_search_pops_bounded {graph : List (Nat × List Nat)}
    {hop : Nat → Nat → Coords → Option (ℚ × Coords)} {refSp qrySp : Nat}
    {refCoords : Coords}
    (hg : GraphWF graph refSp) (hhop : HopWF hop) :
    projectCoord graph hop refSp qrySp refCoords ≠ LoopRes.fuelOut := by
  unfold projectCoord
  refine loopGo_inv6_no_fuelOut hhop hg _ _ ∅ 1 ?_ ?_ ?_
  · refine ⟨?_, ?_, ?_, ?_, ?_, ?_⟩
    · intro e he
      have he2 : e = ⟨1, refSp, refCoords⟩ := by simpa [initDState] using he
      subst he2
      exact one_pos
    · intro e he
      have he2 : e = ⟨1, refSp, refCoords⟩ := by simpa [initDState] using he
      subst he2
      exact le_refl _
    · intro e he
      have he2 : e = ⟨1, refSp, refCoords⟩ := by simpa [initDState] using he
      subst he2
      refine ⟨⟨1, none, refCoords⟩, ?_, le_refl _⟩
      simp [initDState]
    · intro X hX
      exact absurd hX (Finset.not_mem_empty X)
    · intro e he hmem
      exact absurd hmem (Finset.not_mem_empty _)
    · simp [initDState]
  · intro x hx
    exact absurd hx (Finset.not_mem_empty x)
  · unfold dBound initDState
    simp only [Finset.card_empty, Nat.sub_zero, List.length_singleton]
    have hn : 1 ≤ (graph.map Prod.fst).length :=
      List.length_pos.mpr (List.ne_nil_of_mem hg.2.1)
    set n := (graph.map Prod.fst).length
    have e2 : n * (n - 1) + n = n * n := by
      calc n * (n - 1) + n = n * ((n - 1) + 1) := (Nat.mul_succ n (n - 1)).symm
        _ = n * n := by rw [Nat.sub_add_cancel hn]
    have e3 : n ^ 2 = n * n := pow_two n
    omega

theorem claim6_search_pops_bounded_witness :
    GraphWF [(0, [1]), (1, [0])] 0 ∧
    HopWF (fun _ _ c => some ((1 : ℚ) / 2, c)) ∧
    projectCoord [(0, [1]), (1, [0])] (fun _ _ c => some ((1 : ℚ) / 2, c)) 0 1 ⟨0, 5⟩ ≠
      LoopRes.fuelOut := by
  have hg : GraphWF [(0, [1]), (1, [0])] 0 := by
    refine ⟨by decide, by decide, ?_⟩
    intro p hp
    rcases List.mem_cons.mp hp with h1 | h1
    · subst h1
      refine ⟨List.nodup_singleton _, ?_⟩
      intro n hn
      have : n = 1 := by simpa using hn
      subst this
      decide
    · have h2 : p = (1, [0]) := by simpa using h1
      subst h2
      refine ⟨List.nodup_singleton _, ?_⟩
      intro n hn
      have : n = 0 := by simpa using hn
      subst this
      decide
  have hhop : HopWF (fun _ _ c => some ((1 : ℚ) / 2, c)) := by
    intro a b c r hr
    have hr2 : r = ((1 : ℚ) / 2, c) := by simpa using hr.symm
    subst hr2
    constructor
    · norm_num
    · norm_num
  exact ⟨hg, hhop, claim6_search_pops_bounded hg hhop⟩

/-! ## Claim C8 -/

/-- C8: for every input sequence, the public `longestSubsequence` wrapper
computes both the forward result (filter = not-reversed, lo = `qry_start`,
hi = `qry_end`, i.e. `lisInc`) and the reverse result (filter = reversed,
lo = `-qry_start`, hi = `-qry_end`, i.e. `lisDec`) and returns whichever
is longer, returning the forward result when the lengths are equal. -/
theorem claim8_wrapper_picks_longer (seq : List PwalnEntry) :
    (longestSubsequence seq = lisInc seq ∨ longestSubsequence seq = lisDec seq) ∧
    (longestSubsequence seq).length = max (lisInc seq).length (lisDec seq).length ∧
    ((lisInc seq).length = (lisDec seq).length → longestSubsequence seq = lisInc seq) := by
  unfold longestSubsequence
  by_cases h : (lisDec seq).length ≤ (lisInc seq).length
  · rw [if_pos h]
    exact ⟨Or.inl rfl, by omega, fun _ => rfl⟩
  · rw [if_neg h]
    refine ⟨Or.inr rfl, by omega, fun he => absurd (he ▸ le_refl _) h⟩

/-- C8 witness: the theorem applied at a concrete sequence. -/
theorem claim8_wrapper_picks_longer_witness :
    (longestSubsequence [⟨0, 5, 10, 20, 0, 0⟩] = lisInc [⟨0, 5, 10, 20, 0, 0⟩] ∨
      longestSubsequence [⟨0, 5, 10, 20, 0, 0⟩] = lisDec [⟨0, 5, 10, 20, 0, 0⟩]) ∧
    (longestSubsequence [⟨0, 5, 10, 20, 0, 0⟩]).length =
      max (lisInc [⟨0, 5, 10, 20, 0, 0⟩]).length (lisDec [⟨0, 5, 10, 20, 0, 0⟩]).length ∧
    ((lisInc [⟨0, 5, 10, 20, 0, 0⟩]).length = (lisDec [⟨0, 5, 10, 20, 0, 0⟩]).length →
      longestSubsequence [⟨0, 5, 10, 20, 0, 0⟩] = lisInc [⟨0, 5, 10, 20, 0, 0⟩]) :=
  claim8_wrapper_picks_longer [⟨0, 5, 10, 20, 0, 0⟩]

/-! ## Claim C9 -/

/-- C9 counterexample: a sequence of two well-formed entries (uint32
coordinates, `qry_start ≠ qry_end`) on which the forward sanity assert of
src/ipp.cpp:821 fails: the first entry's `qryEnd = 2^31` wraps to a
negative `int` inside the subsequence projections, so the helper chains
the two entries, but the assert compares the original `uint32` values. -/
theorem claim9_counterexample_int_wrap :
    (∀ e ∈ [(⟨0, 1, 2 ^ 31 - 10, 2 ^ 31, 0, 0⟩ : PwalnEntry), ⟨2, 3, 100, 200, 0, 0⟩], e.WF) ∧
    incChecks 0 (lisInc [⟨0, 1, 2 ^ 31 - 10, 2 ^ 31, 0, 0⟩, ⟨2, 3, 100, 200, 0, 0⟩]) = false := by
  constructor
  · decide
  · rfl

/-- C9 (amended): for every input sequence of well-formed `PwalnEntry`s
whose query coordinates are below `2^31` (so the `uint32 → int`
conversion in the subsequence projections is value-preserving), the
wrapper's sanity asserts hold: the forward result is strictly increasing
in `(qry_start, qry_end)` with consecutive elements non-overlapping and
every element satisfying `qry_start < qry_end`, and the reverse result
has non-increasing `qry_end` against the previous `qry_start` with every
element satisfying `qry_start > qry_end`. -/
theorem claim9_amended_asserts_hold (seq : List PwalnEntry)
    (h : ∀ e ∈ seq, e.qryStart ≠ e.qryEnd ∧ e.qryStart < 2 ^ 31 ∧ e.qryEnd < 2 ^ 31) :
    incChecks 0 (lisInc seq) = true ∧ decChecks (2 ^ 32 - 1) (lisDec seq) = true := by
  constructor
  · have hg := longestSubsequenceImpl_good seq incFilter incQs incQe
    refine incChecks_of_chain (lisInc seq) 0 hg.1 ?_ ?_
    · intro e he
      obtain ⟨hf, hmem⟩ := (longestSubsequenceImpl_good seq incFilter incQs incQe).2 e he
      obtain ⟨hne, hs31, he31⟩ := h e hmem
      exact ⟨hf, hne, hs31, he31⟩
    · intro e _
      exact Nat.zero_le _
  · have hg := longestSubsequenceImpl_good seq decFilter decQs decQe
    refine decChecks_of_chain (lisDec seq) (2 ^ 32 - 1) hg.1 ?_ ?_
    · intro e he
      obtain ⟨hf, hmem⟩ := (longestSubsequenceImpl_good seq decFilter decQs decQe).2 e he
      obtain ⟨hne, hs31, he31⟩ := h e hmem
      exact ⟨hf, hs31, he31⟩
    · intro e he
      cases hl : (lisDec seq) with
      | nil => rw [hl] at he; simp at he
      | cons x xs =>
        rw [hl] at he
        have hex : e = x := by
          have h9 := he
          simp at h9
          exact h9.symm
        have hx := (longestSubsequenceImpl_good seq decFilter decQs decQe).2 x
          (by
            show x ∈ lisDec seq
            rw [hl]
            exact List.mem_cons_self x xs)
        have := (h x hx.2).2.2
        rw [hex]
        omega

/-- C9 amended witness: the amended theorem applied at a concrete
sequence. -/
theorem claim9_amended_witness :
    (∀ e ∈ [(⟨0, 5, 10, 20, 0, 0⟩ : PwalnEntry)],
      e.qryStart ≠ e.qryEnd ∧ e.qryStart < 2 ^ 31 ∧ e.qryEnd < 2 ^ 31) ∧
    (incChecks 0 (lisInc [⟨0, 5, 10, 20, 0, 0⟩]) = true ∧
      decChecks (2 ^ 32 - 1) (lisDec [⟨0, 5, 10, 20, 0, 0⟩]) = true) :=
  ⟨by decide, claim9_amended_asserts_hold _ (by decide)⟩

/-! ## Claim C1 -/

/-- C1 (refuting evaluation): a well-formed single-bucket store (its one
entry satisfies the data-model invariants, the one-element bucket is
trivially sorted) and a `ref_coords` whose chromosome has no bucket make
`getAnchors` throw from `pwaln.at(refCoords.chrom)` instead of returning
`none`. -/
theorem claim1_getAnchors_missing_bucket_faults :
    getAnchors [(0, [⟨0, 10, 0, 10, 0, 0⟩])] ⟨1, 0⟩ = .error .mapAtMiss ∧
    (∀ e ∈ [(⟨0, 10, 0, 10, 0, 0⟩ : PwalnEntry)], e.WF) := by
  constructor
  · rfl
  · decide

end Ipp
